import Mathlib

/-!
# Verification of the Lore-Keeper event storage and indexing engine

Shallow embedding of `lorekeeper/timeline_manager.py`,
`lorekeeper/timeline_compaction.py`, `lorekeeper/event_schema.py`,
`lorekeeper/indexing/bptree.py` and `lorekeeper/indexing/tagdict.py`.

Modelling conventions:
* Python `dict` is an association list (`List (κ × ν)`), preserving
  insertion order; `dict[k] = v` replaces in place or appends
  (`updateA`), `dict.pop` removes the key (`popA`), `defaultdict(list)`
  append is `append_bucket`, `dict.setdefault` is `setdefaultA`.
* The SHA-256 ingestion hash is modelled by its pre-image, the payload
  string "date|title|type|details": the store only ever compares hashes
  for equality, and we assume the hash is collision-free, so equality of
  hashes coincides with equality of payloads.
* Date strings are ISO "YYYY-MM-DD"; Python compares them
  lexicographically by code point, exactly as Lean's `String` order
  does.  `datetime.fromisoformat(...).year` is `parse_year`, which
  fails (raises, i.e. returns `none`) on malformed dates.
* `bisect.bisect_left` / `bisect.bisect_right` are embedded as the
  actual binary search from CPython, driven by fuel (the interval
  shrinks at every step, so `length + 1` fuel always suffices).
* Python exceptions are `Except String` / `Option`; an operation that
  mutates `self` takes and returns a `Store`.
-/

namespace LoreKeeper

/-! ## Association-list model of Python dicts -/

def lookupA {κ ν : Type} [DecidableEq κ] : List (κ × ν) → κ → Option ν
  | [], _ => none
  | p :: rest, k => if p.1 = k then some p.2 else lookupA rest k

def updateA {κ ν : Type} [DecidableEq κ] : List (κ × ν) → κ → ν → List (κ × ν)
  | [], k, v => [(k, v)]
  | p :: rest, k, v => if p.1 = k then (k, v) :: rest else p :: updateA rest k v

def popA {κ ν : Type} [DecidableEq κ] (m : List (κ × ν)) (k : κ) : List (κ × ν) :=
  m.filter (fun p => p.1 ≠ k)

def setdefaultA {κ ν : Type} [DecidableEq κ] (m : List (κ × ν)) (k : κ) (v : ν) :
    List (κ × ν) :=
  if (lookupA m k).isSome then m else m ++ [(k, v)]

/-- `defaultdict(list)`: `m[k].append(x)`. -/
def append_bucket {κ ν : Type} [DecidableEq κ] (m : List (κ × List ν)) (k : κ) (x : ν) :
    List (κ × List ν) :=
  updateA m k (((lookupA m k).getD []) ++ [x])

/-- Python `list.insert(i, x)` (also the write-back of a bisect insertion). -/
def insert_at {α : Type} (l : List α) (i : Nat) (x : α) : List α :=
  l.take i ++ x :: l.drop i

/-- Python `str.lower()` (ASCII case folding, which is all the tags in
this code base exercise; written over the character list so that it
evaluates inside the kernel). -/
def py_lower (s : String) : String := ⟨s.data.map Char.toLower⟩

/-- Stable insertion sort (Python's `sorted` is a stable sort; only the
output matters, so any stable sort models it). -/
def stable_ins {α : Type} (le : α → α → Bool) (x : α) : List α → List α
  | [] => [x]
  | y :: ys => if le x y && !le y x then x :: y :: ys else y :: stable_ins le x ys

def stable_sort {α : Type} (le : α → α → Bool) : List α → List α
  | [] => []
  | x :: xs => stable_ins le x (stable_sort le xs)

/-- List-comprehension over a partial map; `none` models a `KeyError`. -/
def omap {α β : Type} (f : α → Option β) : List α → Option (List β)
  | [] => some []
  | x :: xs =>
    match f x, omap f xs with
    | some y, some ys => some (y :: ys)
    | _, _ => none

/-! ## String comparison

Python compares strings lexicographically by code point; that is also
Lean's `String` order, but the library instance decides it through
position iterators that do not evaluate inside the kernel, so the model
uses an equivalent recursion over the character list (the equivalence
with the library order is proved below as `pystr_lt_iff`). -/

def chars_lt : List Char → List Char → Bool
  | [], [] => false
  | [], _ :: _ => true
  | _ :: _, [] => false
  | c :: cs, d :: ds => if c < d then true else if d < c then false else chars_lt cs ds

def pystr_lt (a b : String) : Bool := chars_lt a.data b.data

/-- `a <= b` on strings is `not (b < a)`, as in core Lean. -/
def pystr_le (a b : String) : Bool := !pystr_lt b a

/-! ## `bisect.bisect_left` / `bisect.bisect_right`

The comparison is passed explicitly (Python dispatches on `__lt__`). -/

def bisect_right_fuel {α : Type} (lt : α → α → Bool) (a : List α) (x : α) :
    Nat → Nat → Nat → Nat
  | 0, lo, _ => lo
  | fuel + 1, lo, hi =>
    if lo < hi then
      let mid := (lo + hi) / 2
      if lt x (a.getD mid x) then bisect_right_fuel lt a x fuel lo mid
      else bisect_right_fuel lt a x fuel (mid + 1) hi
    else lo

def bisect_right {α : Type} (lt : α → α → Bool) (a : List α) (x : α) : Nat :=
  bisect_right_fuel lt a x (a.length + 1) 0 a.length

def bisect_left_fuel {α : Type} (lt : α → α → Bool) (a : List α) (x : α) :
    Nat → Nat → Nat → Nat
  | 0, lo, _ => lo
  | fuel + 1, lo, hi =>
    if lo < hi then
      let mid := (lo + hi) / 2
      if lt (a.getD mid x) x then bisect_left_fuel lt a x fuel (mid + 1) hi
      else bisect_left_fuel lt a x fuel lo mid
    else lo

def bisect_left {α : Type} (lt : α → α → Bool) (a : List α) (x : α) : Nat :=
  bisect_left_fuel lt a x (a.length + 1) 0 a.length

/-! ## Gregorian calendar (`datetime.date`, `timedelta`) -/

def is_leap (y : Nat) : Bool := (y % 4 == 0 && y % 100 != 0) || y % 400 == 0

def days_in_month (y m : Nat) : Nat :=
  if m == 2 then (if is_leap y then 29 else 28)
  else if m == 4 || m == 6 || m == 9 || m == 11 then 30
  else 31

/-- A Python `datetime.date` value. -/
structure PyDate where
  y : Nat
  m : Nat
  d : Nat
deriving DecidableEq, Repr, Inhabited

def pred_day : PyDate → Option PyDate
  | ⟨y, m, d⟩ =>
    if d > 1 then some ⟨y, m, d - 1⟩
    else if m > 1 then some ⟨y, m - 1, days_in_month y (m - 1)⟩
    else if y > 1 then some ⟨y - 1, 12, 31⟩
    else none

/-- `today - timedelta(days=n)`: `none` models the `OverflowError`
CPython raises when the result would fall before `date.min`,
`date(1, 1, 1)`. -/
def sub_days (dt : PyDate) : Nat → Option PyDate
  | 0 => some dt
  | n + 1 =>
    match pred_day dt with
    | some d => sub_days d n
    | none => none

def pad2 (n : Nat) : String := if n < 10 then "0" ++ toString n else toString n

def pad4 (n : Nat) : String :=
  if n < 10 then "000" ++ toString n
  else if n < 100 then "00" ++ toString n
  else if n < 1000 then "0" ++ toString n
  else toString n

/-- `date.isoformat()`. -/
def render_date (dt : PyDate) : String :=
  pad4 dt.y ++ "-" ++ pad2 dt.m ++ "-" ++ pad2 dt.d

def digit_val (c : Char) : Nat := c.toNat - '0'.toNat

/-- `datetime.fromisoformat` restricted to the "YYYY-MM-DD" day form used
by the store (`none` models the `ValueError` on malformed input). -/
def parse_date (s : String) : Option PyDate :=
  match s.toList with
  | [a, b, c, d, h1, e, f, h2, g, h] =>
    if a.isDigit && b.isDigit && c.isDigit && d.isDigit && h1 == '-' &&
        e.isDigit && f.isDigit && h2 == '-' && g.isDigit && h.isDigit then
      let y := ((digit_val a * 10 + digit_val b) * 10 + digit_val c) * 10 + digit_val d
      let mo := digit_val e * 10 + digit_val f
      let da := digit_val g * 10 + digit_val h
      if 1 ≤ mo && mo ≤ 12 && 1 ≤ da && da ≤ days_in_month y mo then some ⟨y, mo, da⟩
      else none
    else none
  | _ => none

/-- `datetime.fromisoformat(date).year`. -/
def parse_year (s : String) : Option Nat := (parse_date s).map (·.y)

/-! ## `event_schema.TimelineEvent`

`metadata` is an open string-keyed map; the store only ever reads the
"characters" key (a list of ids), so values are modelled as string
lists. -/

structure TimelineEvent where
  id : String
  date : String
  title : String
  type : String
  details : String
  tags : List String
  source : String
  archived : Bool
  metadata : List (String × List String)
deriving DecidableEq, Repr, Inhabited

/-- `TimelineManager._compute_ingestion_hash`: sha256 over
"date|title|type|details", modelled by its pre-image (see header). -/
def ingestion_payload (e : TimelineEvent) : String :=
  e.date ++ "|" ++ e.title ++ "|" ++ e.type ++ "|" ++ e.details

/-! ## `TimelineManager` state

Fields mirror `TimelineManager.__init__`; `files` / `compact_files` are
the on-disk `{year}.json` / `{year}.compact.json` partitions (the JSON
round-trip through `asdict` / `TimelineEvent(**item)` is the identity,
so records are stored as events).  `lru_cache` is the memoization table
of `_get_events_for_period` (its LRU eviction at 1024 entries only
drops entries and is not modelled; no claim observes capacity). -/

structure Store where
  files : List (Nat × List TimelineEvent) := []
  compact_files : List (Nat × List TimelineEvent) := []
  events_by_id : List (String × TimelineEvent) := []
  sorted_event_ids : List String := []
  sorted_dates : List String := []
  year_index : List (Nat × List String) := []
  year_dates : List (Nat × List String) := []
  index_by_date : List (String × List String) := []
  index_by_tag : List (String × List String) := []
  index_by_type : List (String × List String) := []
  index_by_character : List (String × List String) := []
  index_by_hash : List (String × String) := []
  period_cache : List ((String × String × Bool) × List String) := []
  lru_cache : List ((String × String × Bool) × List String) := []
deriving DecidableEq, Repr, Inhabited

def empty_store : Store := {}

/-- `TimelineManager._load_raw_year`: prefer the compacted shard; a year
with neither file is initialised to `[]` on disk. -/
def load_raw_year (S : Store) (yr : Nat) : List TimelineEvent × Store :=
  match lookupA S.compact_files yr with
  | some recs => (recs, S)
  | none =>
    match lookupA S.files yr with
    | some recs => (recs, S)
    | none => ([], { S with files := updateA S.files yr [] })

/-- `TimelineManager._save_year`: always writes the raw `{year}.json`. -/
def save_year (S : Store) (yr : Nat) (recs : List TimelineEvent) : Store :=
  { S with files := updateA S.files yr recs }

/-- `TimelineManager._insert_sorted_event`.  The year is re-parsed from
`event.date`; every caller has already checked the date parses, so the
`getD 0` default is never taken on reachable inputs. -/
def insert_sorted_event (S : Store) (e : TimelineEvent) : Store :=
  let position := bisect_right pystr_lt S.sorted_dates e.date
  let S := { S with
    sorted_dates := insert_at S.sorted_dates position e.date
    sorted_event_ids := insert_at S.sorted_event_ids position e.id }
  let event_year := (parse_year e.date).getD 0
  let year_dates := (lookupA S.year_dates event_year).getD []
  let year_ids := (lookupA S.year_index event_year).getD []
  let year_pos := bisect_right pystr_lt year_dates e.date
  { S with
    year_dates := updateA S.year_dates event_year (insert_at year_dates year_pos e.date)
    year_index := updateA S.year_index event_year (insert_at year_ids year_pos e.id) }

/-- `TimelineManager._index_event`. -/
def index_event (S : Store) (e : TimelineEvent) : Store :=
  if (lookupA S.events_by_id e.id).isSome then S
  else
    let S := { S with events_by_id := updateA S.events_by_id e.id e }
    let S := insert_sorted_event S e
    let S := { S with index_by_date := append_bucket S.index_by_date e.date e.id }
    let S := if e.type ≠ "" then
        { S with index_by_type := append_bucket S.index_by_type e.type e.id }
      else S
    let S := e.tags.foldl
      (fun S tag => { S with index_by_tag := append_bucket S.index_by_tag (py_lower tag) e.id }) S
    let characters := (lookupA e.metadata ("characters")).getD []
    let S := characters.foldl
      (fun S c => { S with index_by_character := append_bucket S.index_by_character c e.id }) S
    { S with index_by_hash := setdefaultA S.index_by_hash (ingestion_payload e) e.id }

/-- `TimelineManager._invalidate_cache`. -/
def invalidate_cache (S : Store) : Store :=
  { S with period_cache := [], lru_cache := [] }

/-- `TimelineManager.add_event`.  The `eid ≠ ""` test mirrors Python's
truthiness check `if existing_id:`. -/
def add_event (S : Store) (e : TimelineEvent) : Except String TimelineEvent × Store :=
  let h := ingestion_payload e
  match lookupA S.index_by_hash h with
  | some eid =>
    if eid ≠ "" then
      match lookupA S.events_by_id eid with
      | some ev => (.ok ev, S)
      | none => (.error ("KeyError"), S)
    else add_event_fresh S e
  | none => add_event_fresh S e
where
  add_event_fresh (S0 : Store) (e : TimelineEvent) : Except String TimelineEvent × Store :=
    match parse_year e.date with
    | none => (.error ("MalformedDate"), S0)
    | some event_year =>
      let events := (load_raw_year S0 event_year).1
      let S := (load_raw_year S0 event_year).2
      let S := save_year S event_year (events ++ [e])
      let S := index_event S e
      let S := invalidate_cache S
      (.ok e, S)

/-- `TimelineManager.get_events_between`. -/
def get_events_between (S : Store) (start_ end_ : String) : Option (List TimelineEvent) :=
  let start_idx := bisect_left pystr_lt S.sorted_dates start_
  let end_idx := bisect_right pystr_lt S.sorted_dates end_
  omap (lookupA S.events_by_id) ((S.sorted_event_ids.drop start_idx).take (end_idx - start_idx))

/-- Python truthiness of an optional string argument (`None` and `""`
are both falsy). -/
def truthy : Option String → Bool
  | none => false
  | some s => s ≠ ""

/-- `TimelineManager.get_events`. -/
def get_events (S : Store) (year : Option Nat) (start_date end_date : Option String)
    (tags : List String) (include_archived : Bool) : Option (List TimelineEvent) :=
  let tagsL := tags.map py_lower
  let candidates : Option (List TimelineEvent) :=
    if truthy start_date || truthy end_date then
      get_events_between S (start_date.getD ("0000-01-01")) (end_date.getD ("9999-12-31"))
    else
      match year with
      | some y => omap (lookupA S.events_by_id) ((lookupA S.year_index y).getD [])
      | none => omap (lookupA S.events_by_id) S.sorted_event_ids
  let allowed_ids : Option (List String) :=
    if tagsL ≠ [] then
      some (tagsL.foldl (fun acc t => acc ++ ((lookupA S.index_by_tag t).getD [])) [])
    else none
  let in_range : TimelineEvent → Bool := fun e =>
    (include_archived || !e.archived) &&
    (match allowed_ids with
     | some ids => ids.contains e.id
     | none => true) &&
    (!(truthy start_date && pystr_lt e.date (start_date.getD ""))) &&
    (!(truthy end_date && pystr_lt (end_date.getD "") e.date))
  candidates.map (fun evs => evs.filter in_range)

/-- `TimelineManager._resolve_period_range` (with an explicit reference
date; the `utcnow` default is real time and outside the model). -/
def resolve_period_range (period : String) (today : PyDate) :
    Except String (String × String) :=
  if period = "last_7_days" then
    match sub_days today 6 with
    | some s => .ok (render_date s, render_date today)
    | none => .error ("OverflowError")
  else if period = "last_30_days" then
    match sub_days today 29 with
    | some s => .ok (render_date s, render_date today)
    | none => .error ("OverflowError")
  else if period = "last_3_months" then
    match sub_days today 90 with
    | some s => .ok (render_date s, render_date today)
    | none => .error ("OverflowError")
  else if period = "this_year" then .ok (render_date ⟨today.y, 1, 1⟩, render_date today)
  else .error ("Unsupported period: " ++ period)

def valid_periods : List String :=
  ["last_7_days", "last_30_days", "last_3_months", "this_year"]

/-- The id tuple computed inside `_get_events_for_period` (before
memoization). -/
def compute_period_ids (S : Store) (start_ end_ : String) (include_archived : Bool) :
    Option (List String) :=
  (get_events_between S start_ end_).map (fun events =>
    if include_archived then events.map (·.id)
    else (events.filter (fun e => !e.archived)).map (·.id))

/-- `TimelineManager._get_events_for_period` with its `lru_cache`
(an exception is not memoized, matching `functools.lru_cache`). -/
def get_events_for_period (S : Store) (start_ end_ : String) (include_archived : Bool) :
    Except String (List String) × Store :=
  match lookupA S.lru_cache (start_, end_, include_archived) with
  | some ids => (.ok ids, S)
  | none =>
    match compute_period_ids S start_ end_ include_archived with
    | some ids =>
      (.ok ids, { S with lru_cache := updateA S.lru_cache (start_, end_, include_archived) ids })
    | none => (.error ("KeyError"), S)

/-- `TimelineManager.get_events_by_period` (explicit `reference_date`). -/
def get_events_by_period (S : Store) (period : String) (tags : List String)
    (include_archived : Bool) (reference : PyDate) :
    Except String (List TimelineEvent) × Store :=
  let cache_key : String × String × Bool := (period, render_date reference, include_archived)
  match lookupA S.period_cache cache_key, tags with
  | some cached_ids, [] =>
    (match omap (lookupA S.events_by_id) cached_ids with
     | some evs => (.ok evs, S)
     | none => (.error ("KeyError"), S))
  | _, _ =>
    match resolve_period_range period reference with
    | .error msg => (.error msg, S)
    | .ok (start_date, end_date) =>
      if tags = [] then
        match get_events_for_period S start_date end_date include_archived with
        | (.ok cached_ids, S) =>
          (match omap (lookupA S.events_by_id) cached_ids with
           | some evs =>
             (.ok evs, { S with period_cache := updateA S.period_cache cache_key cached_ids })
           | none => (.error ("KeyError"), S))
        | (.error msg, S) => (.error msg, S)
      else
        match get_events S none (some start_date) (some end_date) tags include_archived with
        | some evs => (.ok evs, S)
        | none => (.error ("KeyError"), S)

/-- The years enumerated by `base_path.glob("*.json")`: years owning a
raw or a compacted shard.  A year owning both files is globbed twice in
Python, but the loop bodies using it load through `_load_raw_year`,
which reads the same (compacted) data for both names, so visiting each
year once is observably identical; Python's glob order is
filesystem-dependent, sorted order is used here (as `_bootstrap_from_disk`
does explicitly). -/
def glob_years (S : Store) : List Nat :=
  stable_sort (· ≤ ·) ((S.files.map Prod.fst) ++ (S.compact_files.map Prod.fst)).dedup

/-- One pass of the `archive_event` partition loop over a year's
records: rewrite matching items with `archived = True` and remember the
last match (`archived_event`). -/
def archive_scan (event_id : String) (records : List TimelineEvent) :
    List TimelineEvent × Option TimelineEvent :=
  records.foldl
    (fun acc item =>
      if item.id = event_id then
        let item' := { item with archived := true }
        (acc.1 ++ [item'], some item')
      else (acc.1 ++ [item], acc.2))
    ([], none)

def archive_loop (event_id : String) : Store → List Nat → Option TimelineEvent × Store
  | S, [] => (none, S)
  | S0, yr :: rest =>
    let records := (load_raw_year S0 yr).1
    let S := (load_raw_year S0 yr).2
    let updated := (archive_scan event_id records).1
    match (archive_scan event_id records).2 with
    | some ev =>
      let S := save_year S yr updated
      let S := { S with events_by_id := updateA S.events_by_id event_id ev }
      let S := invalidate_cache S
      (some ev, S)
    | none => archive_loop event_id S rest

/-- `TimelineManager.archive_event`. -/
def archive_event (S : Store) (event_id : String) : Option TimelineEvent × Store :=
  archive_loop event_id S (glob_years S)

/-- `TimelineManager.correct_event`.  When the replacement's `source` is
falsy the event is rebuilt field by field — without `metadata`, which
therefore resets to the dataclass default `{}`. -/
def correct_event (S0 : Store) (event_id : String) (corrected_event : TimelineEvent) :
    Except String (Option TimelineEvent) × Store :=
  let original := (archive_event S0 event_id).1
  let S := (archive_event S0 event_id).2
  match original with
  | none => (.ok none, S)
  | some _ =>
    let corrected :=
      if corrected_event.source = "" then
        { id := corrected_event.id
          date := corrected_event.date
          title := corrected_event.title
          type := corrected_event.type
          details := corrected_event.details
          tags := corrected_event.tags
          source := "correction"
          archived := corrected_event.archived
          metadata := [] : TimelineEvent }
      else corrected_event
    match add_event S corrected with
    | (.ok _, S) => (.ok (some corrected), S)
    | (.error msg, S) => (.error msg, S)

/-! ## `timeline_compaction.compact_year` and startup replay -/

/-- Lexicographic `(date, id)` sort key used by `compact_year`. -/
def compact_le (a b : TimelineEvent) : Bool :=
  pystr_lt a.date b.date || (a.date == b.date && pystr_le a.id b.id)

/-- `timeline_compaction.compact_year`: write the year's events, sorted
by `(date, id)`, to `{year}.compact.json`. -/
def compact_year (S : Store) (yr : Nat) : Store :=
  let (events, S) := load_raw_year S yr
  let ordered := stable_sort compact_le events
  { S with compact_files := updateA S.compact_files yr ordered }

/-- `TimelineManager.__init__` + `_bootstrap_from_disk`: a fresh manager
over the given partition files, replaying every shard in year order. -/
def bootstrap_store (files compact_files : List (Nat × List TimelineEvent)) : Store :=
  let S0 : Store := { empty_store with files := files, compact_files := compact_files }
  (glob_years S0).foldl
    (fun S yr =>
      let (events, S) := load_raw_year S yr
      events.foldl index_event S)
    S0

/-! ## `indexing/tagdict.TagDictionary`

`tag_map` is a `defaultdict(set)` (entry presence matters for dict
equality), `tag_freq` a `Counter` (whose equality ignores zero counts,
so it is a total function with default 0), `tag_cooccurrence_map` a
`defaultdict(Counter)` (row presence matters, row contents compare as
Counters). -/

structure TagDictionary where
  tag_map : String → Option (Finset String)
  tag_freq : String → Int
  tag_cooccurrence_map : String → Option (String → Int)

def upd {ν : Type} (f : String → ν) (k : String) (v : ν) : String → ν :=
  fun x => if x = k then v else f x

def tagdict_empty : TagDictionary := ⟨fun _ => none, fun _ => 0, fun _ => none⟩

/-- One step of the first loop of `TagDictionary.add`:
`tag_map[tag].add(event_id); tag_freq[tag] += 1`. -/
def tag_record (D : TagDictionary) (event_id t : String) : TagDictionary :=
  { D with
    tag_map := upd D.tag_map t (some (insert event_id (((D.tag_map t).getD ∅))))
    tag_freq := upd D.tag_freq t (D.tag_freq t + 1) }

/-- `tag_cooccurrence_map[t][u] += 1` (creates the row, as a
`defaultdict` access does). -/
def cooc_incr (D : TagDictionary) (t u : String) : TagDictionary :=
  let row := (D.tag_cooccurrence_map t).getD (fun _ => 0)
  { D with tag_cooccurrence_map := upd D.tag_cooccurrence_map t (some (upd row u (row u + 1))) }

/-- The nested pairs loop of `TagDictionary.add`. -/
def cooc_pairs : TagDictionary → List String → TagDictionary
  | D, [] => D
  | D, t :: rest =>
    cooc_pairs (rest.foldl (fun D u => cooc_incr (cooc_incr D t u) u t) D) rest

/-- `TagDictionary.add`. -/
def tagdict_add (D : TagDictionary) (event_id : String) (tags : List String) :
    TagDictionary :=
  let tag_list := (tags.filter (fun t => t ≠ "")).map py_lower
  let D := tag_list.foldl (fun D t => tag_record D event_id t) D
  cooc_pairs D tag_list

/-- One step of `TagDictionary.remove` (one raw tag). -/
def remove_tag (D : TagDictionary) (event_id tag : String) : TagDictionary :=
  let normalized := py_lower tag
  match D.tag_map normalized with
  | none => D
  | some s =>
    if event_id ∈ s then
      let D1 := { D with
        tag_map := upd D.tag_map normalized (some (s.erase event_id))
        tag_freq := upd D.tag_freq normalized (D.tag_freq normalized - 1) }
      if D1.tag_freq normalized ≤ 0 then
        { D1 with
          tag_map := upd D1.tag_map normalized none
          tag_freq := upd D1.tag_freq normalized 0
          tag_cooccurrence_map := upd D1.tag_cooccurrence_map normalized none }
      else D1
    else D

/-- `TagDictionary.remove`. -/
def tagdict_remove (D : TagDictionary) (event_id : String) (tags : List String) :
    TagDictionary :=
  tags.foldl (fun D tag => remove_tag D event_id tag) D

/-! ## `indexing/bptree.BPlusTree`

Python nodes are heap objects linked both through `children` and the
leaf `next` pointers, so the embedding uses an arena: `nodes` is the
heap, a node id is an index into it, and a child slot is either a node
id (`Sum.inl`) or a leaf payload bucket (`Sum.inr`).  Keys and values
are `Nat` (the structure is generic over any ordered key).  Recursion
over node ids is fuel-driven; the fuel used always exceeds the tree
height, so it is never exhausted on the concrete runs below. -/

structure BPlusNode where
  keys : List Nat
  children : List (Nat ⊕ List Nat)
  leaf : Bool
  next : Option Nat
deriving DecidableEq, Repr, Inhabited

/-- `_BPlusNode.split` (the new sibling gets id `new_id`); returns
`(split_key, updated self, new node)`. -/
def bpt_split (n : BPlusNode) (new_id : Nat) : Nat × BPlusNode × BPlusNode :=
  let mid := n.keys.length / 2
  let split_key := n.keys.getD mid 0
  if n.leaf then
    (split_key,
     ⟨n.keys.take mid, n.children.take mid, true, some new_id⟩,
     ⟨n.keys.drop mid, n.children.drop mid, true, n.next⟩)
  else
    (split_key,
     ⟨n.keys.take (mid + 1), n.children.take (mid + 1), false, n.next⟩,
     ⟨n.keys.drop (mid + 1), n.children.drop (mid + 1), false, n.next⟩)

/-- `BPlusTree._insert_into_leaf`. -/
def bpt_leaf_insert (n : BPlusNode) (key val : Nat) : BPlusNode :=
  let index := bisect_left Nat.blt n.keys key
  if index < n.keys.length && n.keys.getD index 0 == key then
    let slot : Nat ⊕ List Nat :=
      match n.children.getD index (.inr []) with
      | .inr bucket => .inr (bucket ++ [val])
      | .inl c => .inl c
    { n with children := n.children.set index slot }
  else
    { n with
      keys := insert_at n.keys index key
      children := insert_at n.children index (.inr [val]) }

/-- The `len(node.keys) >= self.order` check ending `BPlusTree._insert`. -/
def bpt_maybe_split (st : List BPlusNode) (order nid : Nat) :
    List BPlusNode × Option (Nat × Nat) :=
  let n := st.getD nid default
  if order ≤ n.keys.length then
    let new_id := st.length
    let (sk, self1, new_node) := bpt_split n new_id
    (st.set nid self1 ++ [new_node], some (sk, new_id))
  else (st, none)

/-- `BPlusTree._insert` (recursive; fuel exceeds tree height). -/
def bpt_insert_aux (order key val : Nat) :
    Nat → List BPlusNode → Nat → List BPlusNode × Option (Nat × Nat)
  | 0, st, _ => (st, none)
  | fuel + 1, st, nid =>
    let n := st.getD nid default
    if n.leaf then
      let st := st.set nid (bpt_leaf_insert n key val)
      bpt_maybe_split st order nid
    else
      let child_index := max (bisect_right Nat.blt n.keys key - 1) 0
      match n.children.getD child_index (.inr []) with
      | .inl cid =>
        (match bpt_insert_aux order key val fuel st cid with
         | (st, some (split_key, new_id)) =>
           let n := st.getD nid default
           let insert_pos := bisect_right Nat.blt n.keys split_key
           let n' := { n with
             keys := insert_at n.keys insert_pos split_key
             children := insert_at n.children (insert_pos + 1) (.inl new_id) }
           bpt_maybe_split (st.set nid n') order nid
         | (st, none) => bpt_maybe_split st order nid)
      | .inr _ => (st, none)

structure BPlusTree where
  nodes : List BPlusNode
  root : Nat
  order : Nat
deriving DecidableEq, Repr

/-- `BPlusTree.__init__` (callers must pass `order >= 3`, enforced by a
`ValueError` in Python). -/
def bpt_new (order : Nat) : BPlusTree := ⟨[⟨[], [], true, none⟩], 0, order⟩

/-- `BPlusTree.insert`. -/
def BPlusTree.insert (t : BPlusTree) (key val : Nat) : BPlusTree :=
  match bpt_insert_aux t.order key val (t.nodes.length + 16) t.nodes t.root with
  | (st, some (split_key, new_id)) =>
    ⟨st ++ [⟨[split_key], [.inl t.root, .inl new_id], false, none⟩], st.length, t.order⟩
  | (st, none) => ⟨st, t.root, t.order⟩

/-- Descend to the leftmost leaf (the `start is None` branch of
`range_query`). -/
def bpt_leftmost (st : List BPlusNode) : Nat → Nat → Nat
  | 0, nid => nid
  | fuel + 1, nid =>
    let n := st.getD nid default
    if n.leaf then nid
    else
      match n.children.getD 0 (.inr []) with
      | .inl cid => bpt_leftmost st fuel cid
      | .inr _ => nid

/-- `BPlusTree._find_leaf`. -/
def bpt_find_leaf (st : List BPlusNode) (key : Nat) : Nat → Nat → Nat
  | 0, nid => nid
  | fuel + 1, nid =>
    let n := st.getD nid default
    if n.leaf then nid
    else
      let index := max (bisect_right Nat.blt n.keys key - 1) 0
      match n.children.getD index (.inr []) with
      | .inl cid => bpt_find_leaf st key fuel cid
      | .inr _ => nid

/-- The `for key, payload in zip(node.keys, node.children)` loop of
`range_query`; the `Bool` is the early `return` on `key > end`. -/
def bpt_scan_keys (start_ end_ : Option Nat) :
    List (Nat × (Nat ⊕ List Nat)) → List Nat → List Nat × Bool
  | [], acc => (acc, false)
  | (k, payload) :: rest, acc =>
    if (match start_ with | some s => decide (k < s) | none => false) then
      bpt_scan_keys start_ end_ rest acc
    else if (match end_ with | some e => decide (e < k) | none => false) then (acc, true)
    else
      bpt_scan_keys start_ end_ rest
        (acc ++ (match payload with | .inr bucket => bucket | .inl _ => []))

/-- The `while node:` leaf walk of `range_query`. -/
def bpt_collect (start_ end_ : Option Nat) (st : List BPlusNode) :
    Nat → Option Nat → List Nat → List Nat
  | _, none, acc => acc
  | 0, some _, acc => acc
  | fuel + 1, some nid, acc =>
    let n := st.getD nid default
    match bpt_scan_keys start_ end_ (n.keys.zip n.children) acc with
    | (acc, true) => acc
    | (acc, false) => bpt_collect start_ end_ st fuel n.next acc

/-- `BPlusTree.range_query`. -/
def BPlusTree.range_query (t : BPlusTree) (start_ end_ : Option Nat) : List Nat :=
  let first :=
    match start_ with
    | none => bpt_leftmost t.nodes (t.nodes.length + 16) t.root
    | some s => bpt_find_leaf t.nodes s (t.nodes.length + 16) t.root
  bpt_collect start_ end_ t.nodes (t.nodes.length + 16) (some first) []

/-! ## Reachable-state invariant -/

/-- The events held by the store (the values of `events_by_id`). -/
def store_events (S : Store) : List TimelineEvent := S.events_by_id.map Prod.snd

/-- Well-formedness of the in-memory indexes, as maintained by
`_index_event` on every reachable state: the two positional arrays are
parallel, date-sorted and duplicate-free, entries of `events_by_id`
carry their own key as `id`, and the hash index only names known ids. -/
structure Invariant (S : Store) : Prop where
  len_eq : S.sorted_dates.length = S.sorted_event_ids.length
  dates_sorted : S.sorted_dates.Pairwise (· ≤ ·)
  ids_nodup : S.sorted_event_ids.Nodup
  keys_nodup : (S.events_by_id.map Prod.fst).Nodup
  zip_lookup : ∀ p ∈ S.sorted_dates.zip S.sorted_event_ids,
    ∃ ev, lookupA S.events_by_id p.2 = some ev ∧ ev.date = p.1 ∧ ev.id = p.2
  mem_keys : ∀ p ∈ S.events_by_id, p.2.id = p.1 ∧ p.1 ∈ S.sorted_event_ids
  hash_keys : ∀ p ∈ S.index_by_hash, p.2 ∈ S.events_by_id.map Prod.fst

/-- The uncached computation of `get_events_by_period`: the same code
path with both caches skipped — resolve the named window, recompute the
id list from the positional index, and resolve ids to events.  This is
what "recomputed over the current store" means. -/
def period_uncached (S : Store) (period : String) (tags : List String)
    (include_archived : Bool) (reference : PyDate) :
    Except String (List TimelineEvent) :=
  match resolve_period_range period reference with
  | .error msg => .error msg
  | .ok (start_date, end_date) =>
    if tags = [] then
      match compute_period_ids S start_date end_date include_archived with
      | none => .error ("KeyError")
      | some ids =>
        match omap (lookupA S.events_by_id) ids with
        | none => .error ("KeyError")
        | some evs => .ok evs
    else
      match get_events S none (some start_date) (some end_date) tags include_archived with
      | some evs => .ok evs
      | none => .error ("KeyError")

/-- Coherence of the two query caches with the current store: every
`_period_cache` entry resolves and reproduces the uncached computation
for its key (in particular its period name is valid), and every
memoized `_get_events_for_period` entry equals the recomputed id list.
Reachable stores satisfy this because both caches are cleared on every
write and repopulated from the live computation. -/
def CacheOK (S : Store) : Prop :=
  (∀ p refS inc ids, lookupA S.period_cache (p, refS, inc) = some ids →
    p ∈ valid_periods ∧
    ∀ ref : PyDate, refS = render_date ref →
      ∃ evs, omap (lookupA S.events_by_id) ids = some evs ∧
        period_uncached S p [] inc ref = .ok evs) ∧
  (∀ s e inc ids, lookupA S.lru_cache (s, e, inc) = some ids →
    compute_period_ids S s e inc = some ids)

/-! ## Concrete scenarios -/

/-- Four inserts into an order-3 tree, values `10 * key`. -/
def bpt_run : BPlusTree := ((((bpt_new 3).insert 1 10).insert 2 20).insert 3 30).insert 4 40

def c2e1 : TimelineEvent := ⟨"e1", "2024-03-05", "t1", "note", "d1", [], "s", false, []⟩
def c2e2 : TimelineEvent := ⟨"e2", "2024-06-01", "t2", "note", "d2", [], "s", false, []⟩

/-- Add one 2024 event, compact the year, then add a second 2024 event. -/
def c2_S1 : Store := (add_event empty_store c2e1).2
def c2_S3 : Store := (add_event (compact_year c2_S1 2024) c2e2).2

/-- Startup replay over the partitions left by the compacted run. -/
def c2_rebuilt : Store := bootstrap_store c2_S3.files c2_S3.compact_files

/-- Startup replay over the partitions of the same run without the
compaction step. -/
def c2_plain : Store :=
  bootstrap_store ((add_event c2_S1 c2e2).2).files ((add_event c2_S1 c2e2).2).compact_files

def c3_first : TimelineEvent := ⟨"x", "2024-03-05", "a", "note", "da", [], "s", false, []⟩
def c3_dup : TimelineEvent := ⟨"x", "2024-03-05", "b", "note", "db", [], "s", false, []⟩
def c3_S1 : Store := (add_event empty_store c3_first).2
def c3_S2 : Store := (add_event c3_S1 c3_dup).2

def c5_orig : TimelineEvent := ⟨"x", "2024-03-05", "orig", "note", "dd", [], "s", false, []⟩
def c5_repl : TimelineEvent :=
  ⟨"r1", "2024-03-06", "fixed", "note", "df", ["t"], "", false, [("k", ["v"])]⟩
def c5_store : Store := (add_event empty_store c5_orig).2

def c4_D0 : TagDictionary := tagdict_add tagdict_empty "e0" ["a"]
def c4_DA : TagDictionary := tagdict_add c4_D0 "e1" ["a", "b"]
def c4_DR : TagDictionary := tagdict_remove c4_DA "e1" ["a", "b"]

/-- A small archived-event store used to witness the universally
quantified claims at a concrete input. -/
def wit_event : TimelineEvent := ⟨"w1", "2024-03-05", "tw", "note", "dw", [], "s", true, []⟩

def wit_store : Store :=
  { files := [(2024, [wit_event])]
    events_by_id := [(("w1"), wit_event)]
    sorted_event_ids := ["w1"]
    sorted_dates := ["2024-03-05"] }

/-! ## The model's string comparison agrees with the library order -/

theorem chars_lt_iff : ∀ cs ds : List Char, chars_lt cs ds = true ↔ cs < ds
  | [], [] => by
    constructor
    · intro h; simp [chars_lt] at h
    · intro h; cases h
  | [], d :: ds => by
    constructor
    · intro _; exact List.Lex.nil
    · intro _; rfl
  | c :: cs, [] => by
    constructor
    · intro h; simp [chars_lt] at h
    · intro h; cases h
  | c :: cs, d :: ds => by
    simp only [chars_lt]
    by_cases h1 : c < d
    · simp only [h1, if_true]
      constructor
      · intro _; exact List.Lex.rel h1
      · intro _; trivial
    · by_cases h2 : d < c
      · simp only [h1, h2, if_false, if_true]
        constructor
        · intro h; exact absurd h (by simp)
        · intro h
          cases h with
          | cons htl => exact absurd h2 (lt_irrefl c)
          | rel hlt => exact absurd hlt h1
      · have hcd : c = d := le_antisymm (le_of_not_lt h2) (le_of_not_lt h1)
        subst hcd
        simp only [h1, h2, if_false]
        rw [chars_lt_iff cs ds]
        constructor
        · intro h; exact List.Lex.cons h
        · intro h
          cases h with
          | cons htl => exact htl
          | rel hlt => exact absurd hlt h1

theorem pystr_lt_iff (a b : String) : pystr_lt a b = true ↔ a < b := by
  rw [pystr_lt, chars_lt_iff, String.lt_iff_toList_lt]
  exact Iff.rfl

theorem pystr_le_iff (a b : String) : pystr_le a b = true ↔ a ≤ b := by
  rw [pystr_le, Bool.not_eq_true', ← Bool.not_eq_true (pystr_lt b a), pystr_lt_iff, not_lt]

/-! ## Correctness of the binary searches on sorted lists -/

theorem pairwise_le_getD {α : Type} [Preorder α] {a : List α} (hs : a.Pairwise (· ≤ ·))
    (d : α) {i j : Nat} (hij : i ≤ j) (hj : j < a.length) : a.getD i d ≤ a.getD j d := by
  rcases eq_or_lt_of_le hij with h | h
  · subst h; exact le_refl _
  · rw [List.getD_eq_getElem a d (lt_trans h hj), List.getD_eq_getElem a d hj]
    exact List.pairwise_iff_getElem.mp hs i j (lt_trans h hj) hj h

theorem bisect_right_fuel_spec {α : Type} [LinearOrder α] (lt : α → α → Bool)
    (hlt : ∀ x y, lt x y = true ↔ x < y) {a : List α} (x : α) (hs : a.Pairwise (· ≤ ·)) :
    ∀ fuel lo hi, hi ≤ a.length → lo ≤ hi → hi - lo < fuel →
      (∀ i, i < lo → a.getD i x ≤ x) →
      (∀ i, hi ≤ i → i < a.length → x < a.getD i x) →
      lo ≤ bisect_right_fuel lt a x fuel lo hi ∧
      bisect_right_fuel lt a x fuel lo hi ≤ hi ∧
      (∀ i, i < bisect_right_fuel lt a x fuel lo hi → a.getD i x ≤ x) ∧
      (∀ i, bisect_right_fuel lt a x fuel lo hi ≤ i → i < a.length → x < a.getD i x) := by
  intro fuel
  induction fuel with
  | zero => intro lo hi _ _ h3 _ _; omega
  | succ fuel ih =>
    intro lo hi h1 h2 h3 hlow hhigh
    rw [bisect_right_fuel]
    by_cases hlh : lo < hi
    · rw [if_pos hlh]
      set mid := (lo + hi) / 2 with hmid
      have hm1 : lo ≤ mid := by omega
      have hm2 : mid < hi := by omega
      by_cases hc : lt x (a.getD mid x)
      · rw [if_pos hc]
        have hxm : x < a.getD mid x := (hlt _ _).mp hc
        have := ih lo mid (by omega) (by omega) (by omega) hlow
          (fun i him hia => lt_of_lt_of_le hxm (pairwise_le_getD hs x him hia))
        exact ⟨this.1, by omega, this.2.2.1, this.2.2.2⟩
      · rw [if_neg hc]
        have hxm : a.getD mid x ≤ x := by
          have := (hlt x (a.getD mid x)).not.mp (by simpa using hc)
          exact le_of_not_lt this
        have := ih (mid + 1) hi h1 (by omega) (by omega)
          (fun i hi1 => by
            have : a.getD i x ≤ a.getD mid x :=
              pairwise_le_getD hs x (by omega) (by omega)
            exact le_trans this hxm)
          hhigh
        exact ⟨by omega, this.2.1, this.2.2.1, this.2.2.2⟩
    · rw [if_neg hlh]
      have : lo = hi := by omega
      subst this
      exact ⟨le_refl _, le_refl _, hlow, fun i hi1 hi2 => hhigh i hi1 hi2⟩

theorem bisect_left_fuel_spec {α : Type} [LinearOrder α] (lt : α → α → Bool)
    (hlt : ∀ x y, lt x y = true ↔ x < y) {a : List α} (x : α) (hs : a.Pairwise (· ≤ ·)) :
    ∀ fuel lo hi, hi ≤ a.length → lo ≤ hi → hi - lo < fuel →
      (∀ i, i < lo → a.getD i x < x) →
      (∀ i, hi ≤ i → i < a.length → x ≤ a.getD i x) →
      lo ≤ bisect_left_fuel lt a x fuel lo hi ∧
      bisect_left_fuel lt a x fuel lo hi ≤ hi ∧
      (∀ i, i < bisect_left_fuel lt a x fuel lo hi → a.getD i x < x) ∧
      (∀ i, bisect_left_fuel lt a x fuel lo hi ≤ i → i < a.length → x ≤ a.getD i x) := by
  intro fuel
  induction fuel with
  | zero => intro lo hi _ _ h3 _ _; omega
  | succ fuel ih =>
    intro lo hi h1 h2 h3 hlow hhigh
    rw [bisect_left_fuel]
    by_cases hlh : lo < hi
    · rw [if_pos hlh]
      set mid := (lo + hi) / 2 with hmid
      have hm1 : lo ≤ mid := by omega
      have hm2 : mid < hi := by omega
      by_cases hc : lt (a.getD mid x) x
      · rw [if_pos hc]
        have hxm : a.getD mid x < x := (hlt _ _).mp hc
        have := ih (mid + 1) hi h1 (by omega) (by omega)
          (fun i hi1 => lt_of_le_of_lt (pairwise_le_getD hs x (by omega) (by omega)) hxm)
          hhigh
        exact ⟨by omega, this.2.1, this.2.2.1, this.2.2.2⟩
      · rw [if_neg hc]
        have hxm : x ≤ a.getD mid x := by
          have := (hlt (a.getD mid x) x).not.mp (by simpa using hc)
          exact le_of_not_lt this
        have := ih lo mid (by omega) (by omega) (by omega) hlow
          (fun i him hia => le_trans hxm (pairwise_le_getD hs x him hia))
        exact ⟨this.1, by omega, this.2.2.1, this.2.2.2⟩
    · rw [if_neg hlh]
      have : lo = hi := by omega
      subst this
      exact ⟨le_refl _, le_refl _, hlow, fun i hi1 hi2 => hhigh i hi1 hi2⟩

theorem bisect_right_spec {α : Type} [LinearOrder α] (lt : α → α → Bool)
    (hlt : ∀ x y, lt x y = true ↔ x < y) {a : List α} (x : α) (hs : a.Pairwise (· ≤ ·)) :
    bisect_right lt a x ≤ a.length ∧
    (∀ i, i < bisect_right lt a x → a.getD i x ≤ x) ∧
    (∀ i, bisect_right lt a x ≤ i → i < a.length → x < a.getD i x) := by
  have := bisect_right_fuel_spec lt hlt x hs (a.length + 1) 0 a.length (le_refl _)
    (Nat.zero_le _) (by omega) (fun i hi => absurd hi (Nat.not_lt_zero i))
    (fun i hi1 hi2 => absurd hi1 (by omega))
  exact ⟨this.2.1, this.2.2.1, this.2.2.2⟩

theorem bisect_left_spec {α : Type} [LinearOrder α] (lt : α → α → Bool)
    (hlt : ∀ x y, lt x y = true ↔ x < y) {a : List α} (x : α) (hs : a.Pairwise (· ≤ ·)) :
    bisect_left lt a x ≤ a.length ∧
    (∀ i, i < bisect_left lt a x → a.getD i x < x) ∧
    (∀ i, bisect_left lt a x ≤ i → i < a.length → x ≤ a.getD i x) := by
  have := bisect_left_fuel_spec lt hlt x hs (a.length + 1) 0 a.length (le_refl _)
    (Nat.zero_le _) (by omega) (fun i hi => absurd hi (Nat.not_lt_zero i))
    (fun i hi1 hi2 => absurd hi1 (by omega))
  exact ⟨this.2.1, this.2.2.1, this.2.2.2⟩

/-! ## Association list and `omap` lemmas -/

theorem lookupA_mem {κ ν : Type} [DecidableEq κ] :
    ∀ {m : List (κ × ν)} {k : κ} {v : ν}, lookupA m k = some v → (k, v) ∈ m := by
  intro m
  induction m with
  | nil => intro k v h; simp [lookupA] at h
  | cons p rest ih =>
    intro k v h
    rw [lookupA] at h
    by_cases hk : p.1 = k
    · rw [if_pos hk] at h
      injection h with h2
      rcases p with ⟨pk, pv⟩
      simp only at hk h2
      subst hk
      subst h2
      exact List.mem_cons_self _ _
    · rw [if_neg hk] at h
      exact List.mem_cons_of_mem p (ih h)

theorem lookupA_of_mem {κ ν : Type} [DecidableEq κ] :
    ∀ {m : List (κ × ν)}, (m.map Prod.fst).Nodup → ∀ {k : κ} {v : ν},
      (k, v) ∈ m → lookupA m k = some v := by
  intro m
  induction m with
  | nil => intro _ k v h; cases h
  | cons p rest ih =>
    intro hnd k v h
    rw [List.map_cons, List.nodup_cons] at hnd
    rw [lookupA]
    rcases List.mem_cons.mp h with h1 | h1
    · cases h1
      rw [if_pos rfl]
    · have hk : p.1 ≠ k := by
        intro he
        exact hnd.1 (he ▸ (List.mem_map.mpr ⟨(k, v), h1, rfl⟩))
      rw [if_neg hk]
      exact ih hnd.2 h1

theorem lookupA_isSome_of_mem_keys {κ ν : Type} [DecidableEq κ] :
    ∀ {m : List (κ × ν)} {k : κ}, k ∈ m.map Prod.fst → (lookupA m k).isSome := by
  intro m
  induction m with
  | nil => intro k h; cases h
  | cons p rest ih =>
    intro k h
    rw [lookupA]
    by_cases hk : p.1 = k
    · rw [if_pos hk]; rfl
    · rw [if_neg hk]
      rcases List.mem_cons.mp h with h1 | h1
      · exact absurd h1.symm hk
      · exact ih h1

theorem omap_eq_some_iff {α β : Type} {f : α → Option β} :
    ∀ {l : List α} {l' : List β},
      omap f l = some l' ↔ List.Forall₂ (fun x y => f x = some y) l l' := by
  intro l
  induction l with
  | nil =>
    intro l'
    constructor
    · intro h; rw [omap] at h; cases h; exact List.Forall₂.nil
    · intro h; cases h; rfl
  | cons x xs ih =>
    intro l'
    constructor
    · intro h
      rw [omap] at h
      rcases hx : f x with _ | y
      · rw [hx] at h; simp at h
      · rw [hx] at h
        rcases hxs : omap f xs with _ | ys
        · rw [hxs] at h; simp at h
        · rw [hxs] at h
          simp at h
          cases h
          exact List.Forall₂.cons hx (ih.mp hxs)
    · intro h
      cases h with
      | cons hfx hrest =>
        rw [omap, hfx, ih.mpr hrest]

theorem omap_isSome_of_forall {α β : Type} {f : α → Option β} :
    ∀ {l : List α}, (∀ x ∈ l, (f x).isSome) → ∃ l', omap f l = some l' := by
  intro l
  induction l with
  | nil => intro _; exact ⟨[], rfl⟩
  | cons x xs ih =>
    intro h
    rcases Option.isSome_iff_exists.mp (h x (List.mem_cons_self x xs)) with ⟨y, hy⟩
    rcases ih (fun z hz => h z (List.mem_cons_of_mem x hz)) with ⟨ys, hys⟩
    exact ⟨y :: ys, by rw [omap, hy, hys]⟩

/-! ## List slice helpers -/

theorem length_slice {α : Type} (l : List α) (i k : Nat) :
    ((l.drop i).take k).length = min k (l.length - i) := by
  rw [List.length_take, List.length_drop]

theorem getElem_slice {α : Type} (l : List α) (i k t : Nat)
    (ht : t < ((l.drop i).take k).length) (htl : i + t < l.length) :
    ((l.drop i).take k)[t] = l[i + t] := by
  rw [List.getElem_take, List.getElem_drop]

theorem zip_pair_mem {α β : Type} (l1 : List α) (l2 : List β) (t : Nat)
    (h1 : t < l1.length) (h2 : t < l2.length) : (l1[t], l2[t]) ∈ l1.zip l2 := by
  have hz : t < (l1.zip l2).length := by
    rw [List.length_zip]
    omega
  have hgz : (l1.zip l2)[t] = (l1[t], l2[t]) := List.getElem_zip
  exact hgz ▸ List.getElem_mem hz

/-! ## `get_events_between` on well-formed stores -/

/-- Core correctness of the bisect slice of `get_events_between`, over
the parallel index lists of a well-formed store. -/
theorem between_core (m : List (String × TimelineEvent)) (dates ids : List String)
    (hlen : dates.length = ids.length) (hsorted : dates.Pairwise (· ≤ ·))
    (hidnd : ids.Nodup) (hknd : (m.map Prod.fst).Nodup)
    (hzip : ∀ p ∈ dates.zip ids, ∃ ev, lookupA m p.2 = some ev ∧ ev.date = p.1 ∧ ev.id = p.2)
    (hmemk : ∀ p ∈ m, p.2.id = p.1 ∧ p.1 ∈ ids) (a b : String) :
    ∃ l, omap (lookupA m)
        ((ids.drop (bisect_left pystr_lt dates a)).take
          (bisect_right pystr_lt dates b - bisect_left pystr_lt dates a)) = some l ∧
      (∀ e, e ∈ l ↔ e ∈ m.map Prod.snd ∧ a ≤ e.date ∧ e.date ≤ b) ∧
      l.Pairwise (fun e1 e2 => e1.date ≤ e2.date) ∧
      l.Nodup := by
  obtain ⟨hjn, hjle, hjgt⟩ := bisect_right_spec pystr_lt pystr_lt_iff b hsorted
  obtain ⟨hin, hilt, hige⟩ := bisect_left_spec pystr_lt pystr_lt_iff a hsorted
  set i := bisect_left pystr_lt dates a with hi
  set j := bisect_right pystr_lt dates b with hj
  -- every index below the dates length has a resolving id
  have hid_lookup : ∀ t (ht : t < dates.length) (ht2 : t < ids.length),
      ∃ ev, lookupA m ids[t] = some ev ∧ ev.date = dates[t] ∧ ev.id = ids[t] := by
    intro t ht ht2
    exact hzip _ (zip_pair_mem dates ids t ht ht2)
  have hslicelen : ((ids.drop i).take (j - i)).length = min (j - i) (ids.length - i) :=
    length_slice ids i (j - i)
  have hsome : ∀ x ∈ (ids.drop i).take (j - i), (lookupA m x).isSome := by
    intro x hx
    rcases List.mem_iff_getElem.mp hx with ⟨t, ht, hxt⟩
    have htn : i + t < dates.length := by
      rw [hslicelen] at ht
      omega
    have hti : i + t < ids.length := hlen ▸ htn
    rcases hid_lookup (i + t) htn hti with ⟨ev, hev, _, _⟩
    rw [← hxt, getElem_slice ids i (j - i) t ht hti]
    rw [hev]
    rfl
  rcases omap_isSome_of_forall hsome with ⟨l, hl⟩
  have hfor := omap_eq_some_iff.mp hl
  have hlenl : ((ids.drop i).take (j - i)).length = l.length := hfor.length_eq
  have hlget : ∀ t (ht : t < l.length) (hts : t < ((ids.drop i).take (j - i)).length),
      lookupA m ((ids.drop i).take (j - i))[t] = some l[t] := by
    intro t ht hts
    rw [List.forall₂_iff_get] at hfor
    exact hfor.2 t hts ht
  have hbound : ∀ t, t < l.length → i + t < dates.length ∧ i + t < j := by
    intro t ht
    rw [← hlenl, hslicelen] at ht
    omega
  have hlelem : ∀ t (ht : t < l.length) (htd : i + t < dates.length)
      (hti : i + t < ids.length),
      l[t].date = dates[i + t] ∧ l[t].id = ids[i + t] ∧ l[t] ∈ m.map Prod.snd := by
    intro t ht htd hti
    rcases hid_lookup (i + t) htd hti with ⟨ev, hev, hevd, hevi⟩
    have heq : lookupA m ids[i + t] = some l[t] := by
      have h0 := hlget t ht (hlenl ▸ ht)
      rwa [getElem_slice ids i (j - i) t (hlenl ▸ ht) hti] at h0
    rw [heq] at hev
    cases hev
    exact ⟨hevd, hevi, List.mem_map.mpr ⟨_, lookupA_mem heq, rfl⟩⟩
  refine ⟨l, hl, ?_, ?_, ?_⟩
  · -- membership characterisation
    intro e
    constructor
    · intro he
      rcases List.mem_iff_getElem.mp he with ⟨t, ht, hte⟩
      have htn : i + t < dates.length := (hbound t ht).1
      have htj : i + t < j := (hbound t ht).2
      rcases hlelem t ht htn (hlen ▸ htn) with ⟨hd, _, hmem⟩
      subst hte
      refine ⟨hmem, ?_, ?_⟩
      · rw [hd]
        have := hige (i + t) (by omega) htn
        rwa [List.getD_eq_getElem dates a htn] at this
      · rw [hd]
        have := hjle (i + t) htj
        rwa [List.getD_eq_getElem dates b htn] at this
    · rintro ⟨hmem, hae, heb⟩
      rcases List.mem_map.mp hmem with ⟨⟨pk, pv⟩, hp, hpe⟩
      simp only at hpe
      rw [hpe] at hp
      have hpid : e.id = pk := (hmemk _ hp).1
      have hpin : pk ∈ ids := (hmemk _ hp).2
      rcases List.mem_iff_getElem.mp hpin with ⟨t, ht, hte⟩
      have htn : t < dates.length := hlen ▸ ht
      rcases hid_lookup t htn ht with ⟨ev, hev, hevd, hevi⟩
      have hlook : lookupA m ids[t] = some e := by
        rw [hte]
        exact lookupA_of_mem hknd hp
      rw [hlook] at hev
      cases hev
      have hti : i ≤ t := by
        by_contra hlt
        push_neg at hlt
        have := hilt t hlt
        rw [List.getD_eq_getElem dates a htn, ← hevd] at this
        exact absurd hae (not_le_of_lt this)
      have htj : t < j := by
        by_contra hge
        push_neg at hge
        have := hjgt t hge htn
        rw [List.getD_eq_getElem dates b htn, ← hevd] at this
        exact absurd heb (not_le_of_lt this)
      have htl : t - i < l.length := by
        rw [← hlenl, hslicelen]
        omega
      have hidx : i + (t - i) = t := by omega
      have hfinal : l[t - i] = e := by
        have h1 := hlget (t - i) htl (hlenl ▸ htl)
        rw [getElem_slice ids i (j - i) (t - i) (hlenl ▸ htl) (by omega)] at h1
        have h2 : ids[i + (t - i)] = ids[t] := by
          simp only [hidx]
        rw [h2] at h1
        rw [hlook] at h1
        injection h1 with h3
        exact h3.symm
      rw [← hfinal]
      exact List.getElem_mem _
  · -- sorted by date
    rw [List.pairwise_iff_getElem]
    intro t u ht hu htu
    rcases hlelem t ht ((hbound t ht).1) (hlen ▸ (hbound t ht).1) with ⟨hd, _, _⟩
    rcases hlelem u hu ((hbound u hu).1) (hlen ▸ (hbound u hu).1) with ⟨hd2, _, _⟩
    rw [hd, hd2]
    exact List.pairwise_iff_getElem.mp hsorted (i + t) (i + u)
      ((hbound t ht).1) ((hbound u hu).1) (by omega)
  · -- no duplicates
    rw [List.nodup_iff_injective_getElem]
    intro f1 f2 he
    rcases f1 with ⟨t, ht⟩
    rcases f2 with ⟨u, hu⟩
    have he2 : l[t] = l[u] := he
    rcases hlelem t ht ((hbound t ht).1) (hlen ▸ (hbound t ht).1) with ⟨_, hid1, _⟩
    rcases hlelem u hu ((hbound u hu).1) (hlen ▸ (hbound u hu).1) with ⟨_, hid2, _⟩
    have hideq : ids[i + t] = ids[i + u] := by
      rw [← hid1, ← hid2, he2]
    have htu2 : i + t = i + u := hidnd.getElem_inj_iff.mp hideq
    exact Fin.ext (show t = u by omega)

/-- `get_events_between` on an invariant-satisfying store returns
exactly the stored events with `a ≤ date ≤ b`, in ascending date
order, each exactly once. -/
theorem get_events_between_spec (S : Store) (hS : Invariant S) (a b : String) :
    ∃ l, get_events_between S a b = some l ∧
      (∀ e, e ∈ l ↔ e ∈ store_events S ∧ a ≤ e.date ∧ e.date ≤ b) ∧
      l.Pairwise (fun e1 e2 => e1.date ≤ e2.date) ∧
      l.Nodup :=
  between_core S.events_by_id S.sorted_dates S.sorted_event_ids hS.len_eq hS.dates_sorted
    hS.ids_nodup hS.keys_nodup hS.zip_lookup hS.mem_keys a b

/-! ## C1 and C2 -/

/-- C1.  The claim — that after any insertion sequence, for any order
`>= 3`, `range_query(None, None)` returns the inserted values in
ascending key order — fails on the code: with order 3 and keys
1, 2, 3, 4 inserted in ascending order, the full range query yields the
values in key order 1, 4, 2, 3.  The first split promotes separator 2,
and the descent `bisect_right(keys, key) - 1` then routes key 4 (and
every key `>=` the separator) into the *left* subtree.  The same
off-by-one makes bounded range queries lose inserted keys outright:
`range_query(2, 2)` and `range_query(3, 3)` both return `[]`,
contradicting the method's own contract of returning all values with
keys between start and end inclusive. -/
theorem C1_bptree_range_query_unsorted :
    bpt_run.range_query none none = [10, 40, 20, 30] ∧
    [10, 40, 20, 30] ≠ [10, 20, 30, 40] ∧
    bpt_run.range_query (some 2) (some 2) = [] ∧
    bpt_run.range_query (some 3) (some 3) = [] := by decide

set_option maxRecDepth 8192 in
/-- C2.  The claim — a store rebuilt from disk after `compact_year(y)`
followed by further writes to year `y` answers reads exactly like the
uncompacted run — fails on the code: `_save_year` always writes the raw
`{year}.json`, while `_load_raw_year` prefers the stale
`{year}.compact.json`, so an event appended after compaction is on disk
yet invisible to startup replay.  Concretely: add `e1` (2024), compact
2024, add `e2` (2024); `add_event` succeeds and the raw partition holds
both events, but the rebuilt store's range query returns only `e1`,
whereas the same run without compaction returns both. -/
theorem C2_compaction_loses_later_write :
    (add_event (compact_year c2_S1 2024) c2e2).1.toOption = some c2e2 ∧
    lookupA c2_S3.files 2024 = some [c2e1, c2e2] ∧
    get_events_between c2_rebuilt ("2024-01-01") ("2024-12-31") = some [c2e1] ∧
    get_events_between c2_plain ("2024-01-01") ("2024-12-31") = some [c2e1, c2e2] :=
  ⟨by decide, by decide, by decide, by decide⟩

/-! ## Counterexamples for C3, C4, C5 -/

/-- C3 counterexample.  The claim quantifies over *every* store state;
it fails on a store that already holds an event with the same id `"x"`
but different content.  `add_event(e1)` then appends to disk but
`_index_event` bails out on the duplicate id before registering the
ingestion hash, so the identical second call `add_event(e2)` misses the
dedup check and appends to the partition file again: the partition
grows from `[a, b]` to `[a, b, b]` — the second call is not a no-op. -/
theorem C3_second_call_grows_partition :
    (lookupA c3_S2.files 2024).map (List.map (·.title)) = some [("a"), ("b")] ∧
    (lookupA ((add_event c3_S2 c3_dup).2).files 2024).map (List.map (·.title)) =
      some [("a"), ("b"), ("b")] ∧
    (add_event c3_S2 c3_dup).2 ≠ c3_S2 := by
  refine ⟨by decide, by decide, ?_⟩
  intro h
  have h1 : (lookupA ((add_event c3_S2 c3_dup).2).files 2024).map (List.map (·.title)) =
      some [("a"), ("b"), ("b")] := by decide
  rw [h] at h1
  have h2 : (lookupA c3_S2.files 2024).map (List.map (·.title)) = some [("a"), ("b")] := by
    decide
  rw [h2] at h1
  exact absurd h1 (by decide)

/-- C4 counterexample.  `remove` is not the inverse of `add` on every
dictionary state: starting from a state where tag `"a"` already has
frequency 1 (from event `"e0"`), `add("e1", ["a", "b"])` then
`remove("e1", ["a", "b"])` leaves a co-occurrence row for `"a"`
(namely `{"b": 1}`) that did not exist before, because `remove` never
decrements co-occurrence counters — it only drops a whole row when a
tag's frequency reaches zero, which `"a"`'s does not.  The event id
`"e1"` is not recorded anywhere in the starting state, as the claim
requires. -/
theorem C4_remove_not_inverse :
    (∀ t : String, ("e1" : String) ∉ ((c4_D0.tag_map t).getD ∅)) ∧
    (c4_DR.tag_cooccurrence_map ("a")).isSome = true ∧
    (c4_D0.tag_cooccurrence_map ("a")).isSome = false ∧
    c4_DR ≠ c4_D0 := by
  refine ⟨?_, by decide, by decide, ?_⟩
  · intro t
    have hmap : c4_D0.tag_map t =
        if t = ("a") then some (insert ("e0") ∅) else none := rfl
    rw [hmap]
    by_cases h : t = ("a") <;> simp [h]
  · intro h
    have h1 : (c4_DR.tag_cooccurrence_map ("a")).isSome = true := by decide
    rw [h] at h1
    have h2 : (c4_D0.tag_cooccurrence_map ("a")).isSome = false := by decide
    rw [h1] at h2
    exact Bool.noConfusion h2

/-- C5 counterexample.  The claim — the stored/returned replacement
equals `r` in every field except `source` — fails on `metadata`: when
`source` is empty, `correct_event` rebuilds the replacement without
passing `metadata`, so it resets to the dataclass default `{}` even
though `r` carried `{"k": ["v"]}`. -/
theorem C5_metadata_dropped :
    c5_repl.source = "" ∧
    c5_repl.metadata = [("k", ["v"])] ∧
    (correct_event c5_store ("x") c5_repl).1.toOption =
      some (some ⟨"r1", "2024-03-06", "fixed", "note", "df", ["t"], "correction", false, []⟩) :=
  ⟨by decide, by decide, by decide⟩

end LoreKeeper

namespace LoreKeeper

theorem wit_store_invariant : Invariant wit_store := by
  refine ⟨rfl, ?_, by decide, by decide, ?_, ?_, ?_⟩
  · simp [wit_store]
  · intro p hp
    have hp2 : p = (("2024-03-05"), ("w1")) := by simpa [wit_store] using hp
    subst hp2
    exact ⟨wit_event, rfl, rfl, rfl⟩
  · intro p hp
    have hp2 : p = (("w1"), wit_event) := by simpa [wit_store] using hp
    subst hp2
    exact ⟨rfl, by simp [wit_store]⟩
  · intro p hp
    exact absurd hp (List.not_mem_nil p)

/-- C6.  For every well-formed store state and dates `a ≤ b`,
`get_events_between(a, b)` returns exactly the stored events with
`a ≤ date ≤ b`, sorted ascending by date, each qualifying event
appearing exactly once. -/
theorem C6_between_range_exact (S : Store) (hS : Invariant S) {a b : String}
    (hab : a ≤ b) :
    ∃ l, get_events_between S a b = some l ∧
      (∀ e, e ∈ l ↔ e ∈ store_events S ∧ a ≤ e.date ∧ e.date ≤ b) ∧
      l.Pairwise (fun e1 e2 => e1.date ≤ e2.date) ∧
      l.Nodup :=
  get_events_between_spec S hS a b

/-- Witness for C6 at a concrete one-event store. -/
theorem C6_witness :
    ∃ l, get_events_between wit_store ("2024-01-01") ("2024-12-31") = some l ∧
      (∀ e, e ∈ l ↔ e ∈ store_events wit_store ∧
        ("2024-01-01" : String) ≤ e.date ∧ e.date ≤ ("2024-12-31")) ∧
      l.Pairwise (fun e1 e2 => e1.date ≤ e2.date) ∧
      l.Nodup :=
  C6_between_range_exact wit_store wit_store_invariant
    ((pystr_le_iff ("2024-01-01") ("2024-12-31")).mp (by decide))

/-- C10.  `get_events_between` performs no archived filtering: an
archived stored event inside the bounds is returned, while `get_events`
with the same explicit bounds and `include_archived = false` (its
default) excludes it. -/
theorem C10_between_ignores_archived (S : Store) (hS : Invariant S) {e : TimelineEvent}
    (hmem : e ∈ store_events S) (harch : e.archived = true) {a b : String}
    (hae : a ≤ e.date) (heb : e.date ≤ b) :
    (∃ l, get_events_between S a b = some l ∧ e ∈ l) ∧
    (∀ l', get_events S none (some a) (some b) [] false = some l' → e ∉ l') := by
  constructor
  · rcases get_events_between_spec S hS a b with ⟨l, hl, hmemc, _, _⟩
    exact ⟨l, hl, (hmemc e).mpr ⟨hmem, hae, heb⟩⟩
  · intro l' hl' hel
    simp only [get_events] at hl'
    rcases Option.map_eq_some'.mp hl' with ⟨evs, _, hfil⟩
    rw [← hfil] at hel
    have := (List.mem_filter.mp hel).2
    simp [harch] at this

/-- Witness for C10 at a concrete one-archived-event store. -/
theorem C10_witness :
    (∃ l, get_events_between wit_store ("2024-01-01") ("2024-12-31") = some l ∧
      wit_event ∈ l) ∧
    (∀ l', get_events wit_store none (some ("2024-01-01")) (some ("2024-12-31")) [] false =
      some l' → wit_event ∉ l') :=
  C10_between_ignores_archived wit_store wit_store_invariant (by decide) rfl
    ((pystr_le_iff ("2024-01-01") ("2024-03-05")).mp (by decide))
    ((pystr_le_iff ("2024-03-05") ("2024-12-31")).mp (by decide))

end LoreKeeper

namespace LoreKeeper

/-! ## C9: archive/correct on an unknown id -/

theorem mem_stable_ins {α : Type} (le : α → α → Bool) (y : α) :
    ∀ (l : List α) (x : α), x ∈ stable_ins le y l ↔ x = y ∨ x ∈ l := by
  intro l
  induction l with
  | nil =>
    intro x
    simp [stable_ins]
  | cons z zs ih =>
    intro x
    rw [stable_ins]
    by_cases hc : le y z && !le z y
    · rw [if_pos hc]
      simp [List.mem_cons]
    · rw [if_neg hc]
      rw [List.mem_cons, ih x, List.mem_cons]
      tauto

theorem mem_stable_sort {α : Type} (le : α → α → Bool) :
    ∀ (l : List α) (x : α), x ∈ stable_sort le l ↔ x ∈ l := by
  intro l
  induction l with
  | nil => intro x; rfl
  | cons z zs ih =>
    intro x
    rw [stable_sort, mem_stable_ins, ih x, List.mem_cons]

/-- A year enumerated by the glob owns a raw or compacted file, so
loading it does not touch the disk. -/
theorem load_raw_year_of_glob (S : Store) (yr : Nat) (hyr : yr ∈ glob_years S) :
    (load_raw_year S yr).2 = S := by
  rw [glob_years, mem_stable_sort, List.mem_dedup, List.mem_append] at hyr
  rw [load_raw_year]
  rcases hc : lookupA S.compact_files yr with _ | recs
  · rcases hf : lookupA S.files yr with _ | recs2
    · exfalso
      rcases hyr with h | h
      · have := lookupA_isSome_of_mem_keys h
        rw [hf] at this
        exact Bool.noConfusion this
      · have := lookupA_isSome_of_mem_keys h
        rw [hc] at this
        exact Bool.noConfusion this
    · rfl
  · rfl

theorem archive_scan_not_found (event_id : String) (records : List TimelineEvent)
    (habs : ∀ r ∈ records, r.id ≠ event_id) :
    archive_scan event_id records = (records, none) := by
  rw [archive_scan]
  suffices h : ∀ acc : List TimelineEvent,
      records.foldl
        (fun acc item =>
          if item.id = event_id then
            (acc.1 ++ [{ item with archived := true }], some { item with archived := true })
          else (acc.1 ++ [item], acc.2))
        (acc, none) = (acc ++ records, none) by
    simpa using h []
  induction records with
  | nil => intro acc; simp
  | cons r rest ih =>
    intro acc
    rw [List.foldl_cons]
    rw [if_neg (habs r (List.mem_cons_self r rest))]
    rw [ih (fun x hx => habs x (List.mem_cons_of_mem r hx)) (acc ++ [r])]
    simp

theorem archive_loop_not_found (event_id : String) (S : Store) :
    ∀ ys : List Nat,
      (∀ yr ∈ ys, (load_raw_year S yr).2 = S ∧
        ∀ r ∈ (load_raw_year S yr).1, r.id ≠ event_id) →
      archive_loop event_id S ys = (none, S) := by
  intro ys
  induction ys with
  | nil => intro _; rfl
  | cons yr rest ih =>
    intro h
    rcases h yr (List.mem_cons_self yr rest) with ⟨hload, habs⟩
    rw [archive_loop]
    simp only [archive_scan_not_found event_id _ habs, hload]
    exact ih (fun y hy => h y (List.mem_cons_of_mem yr hy))

/-- C9.  Archiving or correcting an id that is in no partition returns
the explicit absent result and leaves the store byte-for-byte
unchanged: no partition file rewritten, no index modified, caches
untouched, and the replacement never added.  (`archive_event` consults
only the on-disk partitions, and on reachable stores an id is indexed
iff it is on disk.) -/
theorem C9_unknown_id_archive_correct_noop (S : Store) (event_id : String)
    (habsent : ∀ yr ∈ glob_years S, ∀ r ∈ (load_raw_year S yr).1, r.id ≠ event_id)
    (r : TimelineEvent) :
    archive_event S event_id = (none, S) ∧
    correct_event S event_id r = (.ok none, S) := by
  have harch : archive_event S event_id = (none, S) := by
    rw [archive_event]
    exact archive_loop_not_found event_id S (glob_years S)
      (fun yr hyr => ⟨load_raw_year_of_glob S yr hyr, habsent yr hyr⟩)
  refine ⟨harch, ?_⟩
  rw [correct_event, harch]

/-- Witness for C9: asking the one-event store for the unknown id
`"zz"`. -/
theorem C9_witness :
    archive_event wit_store ("zz") = (none, wit_store) ∧
    correct_event wit_store ("zz") wit_event = (.ok none, wit_store) :=
  C9_unknown_id_archive_correct_noop wit_store ("zz") (by decide) wit_event

end LoreKeeper

namespace LoreKeeper

/-! ## More association-list lemmas -/

theorem lookupA_updateA_self {κ ν : Type} [DecidableEq κ] :
    ∀ (m : List (κ × ν)) (k : κ) (v : ν), lookupA (updateA m k v) k = some v := by
  intro m
  induction m with
  | nil => intro k v; simp [updateA, lookupA]
  | cons p rest ih =>
    intro k v
    rw [updateA]
    by_cases hk : p.1 = k
    · rw [if_pos hk, lookupA, if_pos rfl]
    · rw [if_neg hk, lookupA, if_neg hk]
      exact ih k v

theorem lookupA_eq_none_of_not_mem_keys {κ ν : Type} [DecidableEq κ] :
    ∀ {m : List (κ × ν)} {k : κ}, k ∉ m.map Prod.fst → lookupA m k = none := by
  intro m
  induction m with
  | nil => intro k _; rfl
  | cons p rest ih =>
    intro k h
    rw [List.map_cons, List.mem_cons] at h
    push_neg at h
    rw [lookupA, if_neg (fun he => h.1 he.symm)]
    exact ih h.2

theorem lookupA_append_of_none {κ ν : Type} [DecidableEq κ] :
    ∀ {m : List (κ × ν)} {k : κ}, lookupA m k = none →
      ∀ l : List (κ × ν), lookupA (m ++ l) k = lookupA l k := by
  intro m
  induction m with
  | nil => intro k _ l; rfl
  | cons p rest ih =>
    intro k h l
    rw [lookupA] at h
    by_cases hk : p.1 = k
    · rw [if_pos hk] at h; cases h
    · rw [if_neg hk] at h
      rw [List.cons_append, lookupA, if_neg hk]
      exact ih h l

/-! ## Field bookkeeping across `_index_event` -/

theorem load_raw_year_cases (S : Store) (yr : Nat) :
    (load_raw_year S yr).2 = S ∨
    (load_raw_year S yr).2 = { S with files := updateA S.files yr [] } := by
  rw [load_raw_year]
  cases h1 : lookupA S.compact_files yr with
  | some r => exact Or.inl rfl
  | none =>
    cases h2 : lookupA S.files yr with
    | some r => exact Or.inl rfl
    | none => exact Or.inr rfl

theorem load_raw_year_proj (S : Store) (yr : Nat) :
    ((load_raw_year S yr).2).events_by_id = S.events_by_id ∧
    ((load_raw_year S yr).2).index_by_hash = S.index_by_hash := by
  rcases load_raw_year_cases S yr with h | h <;> rw [h] <;> exact ⟨rfl, rfl⟩

theorem fold_bucket_proj {β : Type} (f : Store → β → List (String × List String))
    (g : Store → List (String × List String) → Store)
    (hg : ∀ S v, (g S v).events_by_id = S.events_by_id ∧
      (g S v).index_by_hash = S.index_by_hash ∧ (g S v).files = S.files) :
    ∀ (l : List β) (S : Store),
      ((l.foldl (fun S x => g S (f S x)) S)).events_by_id = S.events_by_id ∧
      ((l.foldl (fun S x => g S (f S x)) S)).index_by_hash = S.index_by_hash ∧
      ((l.foldl (fun S x => g S (f S x)) S)).files = S.files := by
  intro l
  induction l with
  | nil => intro S; exact ⟨rfl, rfl, rfl⟩
  | cons x xs ih =>
    intro S
    rw [List.foldl_cons]
    rcases ih (g S (f S x)) with ⟨h1, h2, h5⟩
    rcases hg S (f S x) with ⟨h3, h4, h6⟩
    exact ⟨h1.trans h3, h2.trans h4, h5.trans h6⟩

theorem index_event_proj (S : Store) (e : TimelineEvent)
    (hfresh : (lookupA S.events_by_id e.id).isSome = false) :
    (index_event S e).events_by_id = updateA S.events_by_id e.id e ∧
    (index_event S e).index_by_hash =
      setdefaultA S.index_by_hash (ingestion_payload e) e.id ∧
    (index_event S e).files = S.files := by
  rw [index_event, if_neg (by rw [hfresh]; exact Bool.false_ne_true)]
  have htags := fold_bucket_proj
    (fun S tag => append_bucket S.index_by_tag (py_lower tag) e.id)
    (fun S v => { S with index_by_tag := v }) (fun S v => ⟨rfl, rfl, rfl⟩) e.tags
  have hchars := fold_bucket_proj
    (fun S c => append_bucket S.index_by_character c e.id)
    (fun S v => { S with index_by_character := v }) (fun S v => ⟨rfl, rfl, rfl⟩)
    ((lookupA e.metadata ("characters")).getD [])
  refine ⟨?_, ?_, ?_⟩
  · simp only [insert_sorted_event]
    rcases hchars _ with ⟨hc1, _, _⟩
    rw [hc1]
    rcases htags _ with ⟨ht1, _, _⟩
    rw [ht1]
    split <;> rfl
  · simp only [insert_sorted_event]
    rcases hchars _ with ⟨_, hc2, _⟩
    rw [hc2]
    rcases htags _ with ⟨_, ht2, _⟩
    rw [ht2]
    split <;> rfl
  · simp only [insert_sorted_event]
    rcases hchars _ with ⟨_, _, hc3⟩
    rw [hc3]
    rcases htags _ with ⟨_, _, ht3⟩
    rw [ht3]
    split <;> rfl

end LoreKeeper

namespace LoreKeeper

/-! ## C3 (amended): content idempotence of `add_event` -/

/-- C3 (amended).  `add_event` is idempotent on content provided the
first event's id is non-empty and not already present in the store,
every hash-index entry names a non-empty id (automatic on stores fed
non-empty ids, since `_index_event` only ever records the added
event's own id), and the event's date carries a parseable
`YYYY-MM-DD` year: for any two events agreeing on
`(date, title, type, details)`, both calls return the same stored
event, and the second call returns the exact store produced by the
first — partition files, every index and the caches unchanged.
Without the fresh-id proviso the claim is false
(`C3_second_call_grows_partition`), and an empty id fails the same
way: Python's falsy `if existing_id:` check skips the dedup. -/
theorem C3_add_event_idempotent_fresh_id (S : Store) (hS : Invariant S)
    (e1 e2 : TimelineEvent)
    (hagree : e2.date = e1.date ∧ e2.title = e1.title ∧ e2.type = e1.type ∧
      e2.details = e1.details)
    (hid_fresh : e1.id ∉ S.events_by_id.map Prod.fst)
    (hid_ne : e1.id ≠ "")
    (hhash_ne : ∀ p ∈ S.index_by_hash, p.2 ≠ "")
    (hdate : (parse_year e1.date).isSome) :
    ∃ v S1, add_event S e1 = (.ok v, S1) ∧ add_event S1 e2 = (.ok v, S1) := by
  have hpay : ingestion_payload e2 = ingestion_payload e1 := by
    rcases hagree with ⟨h1, h2, h3, h4⟩
    rw [ingestion_payload, ingestion_payload, h1, h2, h3, h4]
  cases hlk : lookupA S.index_by_hash (ingestion_payload e1) with
  | some eid =>
    have heid_ne : eid ≠ "" := hhash_ne _ (lookupA_mem hlk)
    have heid_mem : eid ∈ S.events_by_id.map Prod.fst := hS.hash_keys _ (lookupA_mem hlk)
    obtain ⟨ev, hev⟩ := Option.isSome_iff_exists.mp (lookupA_isSome_of_mem_keys heid_mem)
    refine ⟨ev, S, ?_, ?_⟩
    · simp only [add_event, hlk, hev, if_pos heid_ne]
    · simp only [add_event, hpay, hlk, hev, if_pos heid_ne]
  | none =>
    obtain ⟨yr, hyr⟩ := Option.isSome_iff_exists.mp hdate
    have hfresh : (lookupA S.events_by_id e1.id).isSome = false := by
      rw [lookupA_eq_none_of_not_mem_keys hid_fresh]
      rfl
    have hload := load_raw_year_proj S yr
    have hfresh2 : (lookupA ((save_year (load_raw_year S yr).2 yr
        ((load_raw_year S yr).1 ++ [e1])).events_by_id) e1.id).isSome = false := by
      rw [save_year]
      rw [show ({ (load_raw_year S yr).2 with
        files := updateA ((load_raw_year S yr).2).files yr
          ((load_raw_year S yr).1 ++ [e1]) } : Store).events_by_id =
          ((load_raw_year S yr).2).events_by_id from rfl]
      rw [hload.1]
      exact hfresh
    have hidx := index_event_proj (save_year (load_raw_year S yr).2 yr
      ((load_raw_year S yr).1 ++ [e1])) e1 hfresh2
    set S4 := invalidate_cache (index_event (save_year (load_raw_year S yr).2 yr
      ((load_raw_year S yr).1 ++ [e1])) e1) with hS4
    have h1 : add_event S e1 = (.ok e1, S4) := by
      simp only [add_event, hlk, add_event.add_event_fresh, hyr]
    have hS4hash : S4.index_by_hash =
        setdefaultA S.index_by_hash (ingestion_payload e1) e1.id := by
      rw [hS4]
      rw [show (invalidate_cache (index_event (save_year (load_raw_year S yr).2 yr
        ((load_raw_year S yr).1 ++ [e1])) e1)).index_by_hash =
        (index_event (save_year (load_raw_year S yr).2 yr
          ((load_raw_year S yr).1 ++ [e1])) e1).index_by_hash from rfl]
      rw [hidx.2.1]
      rw [show (save_year (load_raw_year S yr).2 yr
        ((load_raw_year S yr).1 ++ [e1])).index_by_hash =
        ((load_raw_year S yr).2).index_by_hash from rfl]
      rw [hload.2]
    have hS4ev : S4.events_by_id = updateA S.events_by_id e1.id e1 := by
      rw [hS4]
      rw [show (invalidate_cache (index_event (save_year (load_raw_year S yr).2 yr
        ((load_raw_year S yr).1 ++ [e1])) e1)).events_by_id =
        (index_event (save_year (load_raw_year S yr).2 yr
          ((load_raw_year S yr).1 ++ [e1])) e1).events_by_id from rfl]
      rw [hidx.1]
      rw [show (save_year (load_raw_year S yr).2 yr
        ((load_raw_year S yr).1 ++ [e1])).events_by_id =
        ((load_raw_year S yr).2).events_by_id from rfl]
      rw [hload.1]
    have hlk2 : lookupA S4.index_by_hash (ingestion_payload e2) = some e1.id := by
      rw [hpay, hS4hash, setdefaultA, if_neg (by rw [hlk]; exact Bool.false_ne_true)]
      rw [lookupA_append_of_none hlk]
      rw [lookupA, if_pos rfl]
    have hev2 : lookupA S4.events_by_id e1.id = some e1 := by
      rw [hS4ev]
      exact lookupA_updateA_self S.events_by_id e1.id e1
    refine ⟨e1, S4, h1, ?_⟩
    simp only [add_event, hlk2, hev2, if_pos hid_ne]

/-- Witness for the amended C3 on the one-event store. -/
theorem C3_witness :
    ∃ v S1, add_event wit_store ⟨"n1", "2024-04-02", "tt", "note", "dd", [], "s", false, []⟩ =
        (.ok v, S1) ∧
      add_event S1 ⟨"n1", "2024-04-02", "tt", "note", "dd", [], "s", false, []⟩ =
        (.ok v, S1) :=
  C3_add_event_idempotent_fresh_id wit_store wit_store_invariant _ _
    ⟨rfl, rfl, rfl, rfl⟩ (by decide) (by decide)
    (fun p hp => absurd hp (List.not_mem_nil p)) (by decide)

end LoreKeeper

namespace LoreKeeper

/-! ## C5 (amended): the shape of a stored correction -/

theorem index_event_files (S : Store) (e : TimelineEvent) :
    (index_event S e).files = S.files := by
  rw [index_event]
  split
  · rfl
  · have htags := fold_bucket_proj
      (fun S tag => append_bucket S.index_by_tag (py_lower tag) e.id)
      (fun S v => { S with index_by_tag := v }) (fun S v => ⟨rfl, rfl, rfl⟩) e.tags
    have hchars := fold_bucket_proj
      (fun S c => append_bucket S.index_by_character c e.id)
      (fun S v => { S with index_by_character := v }) (fun S v => ⟨rfl, rfl, rfl⟩)
      ((lookupA e.metadata ("characters")).getD [])
    simp only [insert_sorted_event]
    rcases hchars _ with ⟨_, _, hc3⟩
    rw [hc3]
    rcases htags _ with ⟨_, _, ht3⟩
    rw [ht3]
    split <;> rfl

theorem archive_fold_snd_isSome (event_id : String) :
    ∀ (records : List TimelineEvent) (acc : List TimelineEvent × Option TimelineEvent),
      ((∃ rec ∈ records, rec.id = event_id) ∨ acc.2.isSome) →
      ((records.foldl
        (fun acc item =>
          if item.id = event_id then
            (acc.1 ++ [{ item with archived := true }], some { item with archived := true })
          else (acc.1 ++ [item], acc.2)) acc).2).isSome := by
  intro records
  induction records with
  | nil =>
    intro acc h
    rcases h with ⟨rec, hmem, _⟩ | h
    · cases hmem
    · exact h
  | cons r rest ih =>
    intro acc h
    rw [List.foldl_cons]
    by_cases hr : r.id = event_id
    · rw [if_pos hr]
      exact ih _ (Or.inr rfl)
    · rw [if_neg hr]
      apply ih
      rcases h with ⟨rec, hmem, hrec⟩ | hs
      · rcases List.mem_cons.mp hmem with heq | hm
        · exact absurd (heq ▸ hrec) hr
        · exact Or.inl ⟨rec, hm, hrec⟩
      · exact Or.inr hs

theorem archive_scan_found (event_id : String) (records : List TimelineEvent)
    (h : ∃ rec ∈ records, rec.id = event_id) :
    ((archive_scan event_id records).2).isSome :=
  archive_fold_snd_isSome event_id records ([], none) (Or.inl h)

theorem archive_loop_found (event_id : String) (S : Store) :
    ∀ ys : List Nat, (∀ yr ∈ ys, (load_raw_year S yr).2 = S) →
      (∃ yr ∈ ys, ∃ rec ∈ (load_raw_year S yr).1, rec.id = event_id) →
      ∃ ev Sa, archive_loop event_id S ys = (some ev, Sa) ∧
        Sa.index_by_hash = S.index_by_hash := by
  intro ys
  induction ys with
  | nil =>
    intro _ h
    rcases h with ⟨yr, hmem, _⟩
    cases hmem
  | cons yr rest ih =>
    intro hstable hfound
    rw [archive_loop]
    have hld := hstable yr (List.mem_cons_self yr rest)
    cases hscan : (archive_scan event_id (load_raw_year S yr).1).2 with
    | some ev =>
      refine ⟨ev, _, rfl, ?_⟩
      show ((load_raw_year S yr).2).index_by_hash = S.index_by_hash
      rw [hld]
    | none =>
      rw [hld]
      apply ih (fun y hy => hstable y (List.mem_cons_of_mem yr hy))
      rcases hfound with ⟨y, hymem, hyrec⟩
      rcases List.mem_cons.mp hymem with heq | hm
      · exfalso
        have := archive_scan_found event_id (load_raw_year S yr).1 (heq ▸ hyrec)
        rw [hscan] at this
        exact Bool.noConfusion this
      · exact ⟨y, hm, hyrec⟩

/-- C5 (amended).  For an id present in a partition and a replacement
`r` with an empty `source` whose `(date, title, type, details)` hash is
not yet recorded, `correct_event(id, r)` stores and returns a
replacement equal to `r` in `id`, `date`, `title`, `type`, `details`,
`tags` and `archived`, with `source = "correction"` — and with
`metadata` reset to the empty map, not carried over from `r`
(`C5_metadata_dropped` shows the original claim's `metadata` clause
fails). -/
theorem C5_correct_event_fields (S : Store) (event_id : String) (r : TimelineEvent)
    {ryr : Nat}
    (hpresent : ∃ yr ∈ glob_years S, ∃ rec ∈ (load_raw_year S yr).1, rec.id = event_id)
    (hsrc : r.source = "")
    (hdate : parse_year r.date = some ryr)
    (hhash : lookupA S.index_by_hash (ingestion_payload r) = none) :
    ∃ S2, correct_event S event_id r =
        (.ok (some { r with source := "correction", metadata := [] }), S2) ∧
      ∃ yfile, lookupA S2.files ryr = some yfile ∧
        ({ r with source := "correction", metadata := [] } : TimelineEvent) ∈ yfile := by
  obtain ⟨ev, Sa, harch, hhasha⟩ := archive_loop_found event_id S (glob_years S)
    (fun yr h => load_raw_year_of_glob S yr h) hpresent
  have harch2 : archive_event S event_id = (some ev, Sa) := by
    rw [archive_event]
    exact harch
  have hcpay : ingestion_payload ({ r with source := "correction", metadata := [] } :
      TimelineEvent) = ingestion_payload r := rfl
  have hcdate : parse_year ({ r with source := "correction", metadata := [] } :
      TimelineEvent).date = some ryr := hdate
  have hlkSa : lookupA Sa.index_by_hash
      (ingestion_payload ({ r with source := "correction", metadata := [] } :
        TimelineEvent)) = none := by
    rw [hcpay, hhasha]
    exact hhash
  have hadd : add_event Sa ({ r with source := "correction", metadata := [] } :
      TimelineEvent) =
      (.ok ({ r with source := "correction", metadata := [] } : TimelineEvent),
        invalidate_cache (index_event (save_year (load_raw_year Sa ryr).2 ryr
          ((load_raw_year Sa ryr).1 ++
            [({ r with source := "correction", metadata := [] } : TimelineEvent)]))
          ({ r with source := "correction", metadata := [] } : TimelineEvent))) := by
    simp only [add_event, hlkSa, add_event.add_event_fresh, hcdate]
  refine ⟨invalidate_cache (index_event (save_year (load_raw_year Sa ryr).2 ryr
    ((load_raw_year Sa ryr).1 ++
      [({ r with source := "correction", metadata := [] } : TimelineEvent)]))
    ({ r with source := "correction", metadata := [] } : TimelineEvent)), ?_, ?_⟩
  · rw [correct_event, harch2]
    rw [if_pos hsrc]
    simp only []
    rw [hadd]
  · have hfiles : (invalidate_cache (index_event (save_year (load_raw_year Sa ryr).2 ryr
        ((load_raw_year Sa ryr).1 ++
          [({ r with source := "correction", metadata := [] } : TimelineEvent)]))
        ({ r with source := "correction", metadata := [] } : TimelineEvent))).files =
        updateA ((load_raw_year Sa ryr).2).files ryr
          ((load_raw_year Sa ryr).1 ++
            [({ r with source := "correction", metadata := [] } : TimelineEvent)]) := by
      rw [show (invalidate_cache (index_event (save_year (load_raw_year Sa ryr).2 ryr
        ((load_raw_year Sa ryr).1 ++
          [({ r with source := "correction", metadata := [] } : TimelineEvent)]))
        ({ r with source := "correction", metadata := [] } : TimelineEvent))).files =
        (index_event (save_year (load_raw_year Sa ryr).2 ryr
          ((load_raw_year Sa ryr).1 ++
            [({ r with source := "correction", metadata := [] } : TimelineEvent)]))
          ({ r with source := "correction", metadata := [] } : TimelineEvent)).files from rfl]
      rw [index_event_files]
      rfl
    refine ⟨(load_raw_year Sa ryr).1 ++
      [({ r with source := "correction", metadata := [] } : TimelineEvent)], ?_, ?_⟩
    · rw [hfiles]
      exact lookupA_updateA_self _ ryr _
    · exact List.mem_append_right _ (List.mem_singleton_self _)

/-- Witness for the amended C5: correcting the archived event of the
one-event store with a metadata-carrying replacement. -/
theorem C5_witness :
    ∃ S2, correct_event wit_store ("w1")
        ⟨"r9", "2024-05-01", "fixed", "note", "nf", ["t"], "", false, [("k", ["v"])]⟩ =
        (.ok (some ⟨"r9", "2024-05-01", "fixed", "note", "nf", ["t"], "correction",
          false, []⟩), S2) ∧
      ∃ yfile, lookupA S2.files 2024 = some yfile ∧
        (⟨"r9", "2024-05-01", "fixed", "note", "nf", ["t"], "correction", false, []⟩ :
          TimelineEvent) ∈ yfile :=
  C5_correct_event_fields wit_store ("w1")
    ⟨"r9", "2024-05-01", "fixed", "note", "nf", ["t"], "", false, [("k", ["v"])]⟩
    (by decide) rfl (by decide) rfl

end LoreKeeper

namespace LoreKeeper

/-! ## C4 (amended): add/remove restoration on fresh tags -/

theorem upd_self {ν : Type} (f : String → ν) (k : String) (v : ν) : upd f k v k = v := by
  rw [upd]
  exact if_pos rfl

theorem upd_other {ν : Type} (f : String → ν) (k : String) (v : ν) {x : String}
    (hx : x ≠ k) : upd f k v x = f x := by
  rw [upd]
  exact if_neg hx

theorem tagdict_eq (D E : TagDictionary) (h1 : ∀ k, D.tag_map k = E.tag_map k)
    (h2 : ∀ k, D.tag_freq k = E.tag_freq k)
    (h3 : ∀ k, D.tag_cooccurrence_map k = E.tag_cooccurrence_map k) : D = E := by
  rcases D with ⟨dm, df, dc⟩
  rcases E with ⟨em, ef, ec⟩
  simp only [TagDictionary.mk.injEq]
  exact ⟨funext h1, funext h2, funext h3⟩

theorem py_lower_eq_empty_iff (s : String) : py_lower s = "" ↔ s = "" := by
  constructor
  · intro h
    have h2 : s.data.map Char.toLower = ([] : List Char) := congrArg String.data h
    rw [List.map_eq_nil] at h2
    rcases s with ⟨data⟩
    simp only at h2
    rw [h2]
  · intro h
    rw [h]
    rfl

theorem mem_tag_list_iff (T : List String) (k : String) :
    k ∈ (T.filter (fun t => t ≠ "")).map py_lower ↔ k ∈ T.map py_lower ∧ k ≠ "" := by
  rw [List.mem_map]
  constructor
  · rintro ⟨t, htm, rfl⟩
    rw [List.mem_filter] at htm
    have ht : t ≠ "" := by simpa using htm.2
    exact ⟨List.mem_map.mpr ⟨t, htm.1, rfl⟩,
      fun h => ht ((py_lower_eq_empty_iff t).mp h)⟩
  · rintro ⟨hm, hk⟩
    rcases List.mem_map.mp hm with ⟨t, htm, rfl⟩
    have ht : t ≠ "" := fun h => hk (by rw [h]; rfl)
    exact ⟨t, List.mem_filter.mpr ⟨htm, by simpa using ht⟩, rfl⟩

theorem tag_record_fold (e : String) :
    ∀ (tl : List String) (S : TagDictionary), tl.Nodup →
      (∀ k ∈ tl, S.tag_map k = none ∧ S.tag_freq k = 0) →
      (∀ k ∈ tl, (tl.foldl (fun D t => tag_record D e t) S).tag_map k =
          some ({e} : Finset String) ∧
        (tl.foldl (fun D t => tag_record D e t) S).tag_freq k = 1) ∧
      (∀ k, k ∉ tl →
        (tl.foldl (fun D t => tag_record D e t) S).tag_map k = S.tag_map k ∧
        (tl.foldl (fun D t => tag_record D e t) S).tag_freq k = S.tag_freq k) ∧
      (∀ k, (tl.foldl (fun D t => tag_record D e t) S).tag_cooccurrence_map k =
        S.tag_cooccurrence_map k) := by
  intro tl
  induction tl with
  | nil =>
    intro S _ _
    exact ⟨fun k hk => absurd hk (List.not_mem_nil k),
      fun k _ => ⟨rfl, rfl⟩, fun k => rfl⟩
  | cons t rest ih =>
    intro S hnd hfresh
    rw [List.nodup_cons] at hnd
    rw [List.foldl_cons]
    have hfresh' : ∀ k ∈ rest, (tag_record S e t).tag_map k = none ∧
        (tag_record S e t).tag_freq k = 0 := by
      intro k hk
      have hkt : k ≠ t := fun hkt => hnd.1 (hkt ▸ hk)
      rw [tag_record]
      constructor
      · rw [show ({ S with tag_map := upd S.tag_map t (some (insert e
          ((S.tag_map t).getD ∅))), tag_freq := upd S.tag_freq t (S.tag_freq t + 1) } :
          TagDictionary).tag_map = upd S.tag_map t (some (insert e
          ((S.tag_map t).getD ∅))) from rfl]
        rw [upd_other _ _ _ hkt]
        exact (hfresh k (List.mem_cons_of_mem t hk)).1
      · rw [show ({ S with tag_map := upd S.tag_map t (some (insert e
          ((S.tag_map t).getD ∅))), tag_freq := upd S.tag_freq t (S.tag_freq t + 1) } :
          TagDictionary).tag_freq = upd S.tag_freq t (S.tag_freq t + 1) from rfl]
        rw [upd_other _ _ _ hkt]
        exact (hfresh k (List.mem_cons_of_mem t hk)).2
    rcases ih (tag_record S e t) hnd.2 hfresh' with ⟨hin, hout, hcooc⟩
    refine ⟨?_, ?_, ?_⟩
    · intro k hk
      rcases List.mem_cons.mp hk with heq | hm
      · subst heq
        rcases hout k hnd.1 with ⟨h1, h2⟩
        rw [h1, h2, tag_record]
        constructor
        · rw [show ({ S with tag_map := upd S.tag_map k (some (insert e
            ((S.tag_map k).getD ∅))), tag_freq := upd S.tag_freq k (S.tag_freq k + 1) } :
            TagDictionary).tag_map = upd S.tag_map k (some (insert e
            ((S.tag_map k).getD ∅))) from rfl]
          rw [upd_self]
          rw [(hfresh k (List.mem_cons_self k rest)).1]
          rfl
        · rw [show ({ S with tag_map := upd S.tag_map k (some (insert e
            ((S.tag_map k).getD ∅))), tag_freq := upd S.tag_freq k (S.tag_freq k + 1) } :
            TagDictionary).tag_freq = upd S.tag_freq k (S.tag_freq k + 1) from rfl]
          rw [upd_self]
          rw [(hfresh k (List.mem_cons_self k rest)).2]
          exact zero_add 1
      · exact hin k hm
    · intro k hk
      rw [List.mem_cons] at hk
      push_neg at hk
      rcases hout k hk.2 with ⟨h1, h2⟩
      rw [h1, h2, tag_record]
      constructor
      · rw [show ({ S with tag_map := upd S.tag_map t (some (insert e
          ((S.tag_map t).getD ∅))), tag_freq := upd S.tag_freq t (S.tag_freq t + 1) } :
          TagDictionary).tag_map = upd S.tag_map t (some (insert e
          ((S.tag_map t).getD ∅))) from rfl]
        rw [upd_other _ _ _ hk.1]
      · rw [show ({ S with tag_map := upd S.tag_map t (some (insert e
          ((S.tag_map t).getD ∅))), tag_freq := upd S.tag_freq t (S.tag_freq t + 1) } :
          TagDictionary).tag_freq = upd S.tag_freq t (S.tag_freq t + 1) from rfl]
        rw [upd_other _ _ _ hk.1]
    · intro k
      rw [hcooc k]
      rfl

theorem cooc_incr_proj (D : TagDictionary) (t u : String) :
    (∀ k, (cooc_incr D t u).tag_map k = D.tag_map k ∧
      (cooc_incr D t u).tag_freq k = D.tag_freq k) ∧
    (∀ k, k ≠ t → (cooc_incr D t u).tag_cooccurrence_map k =
      D.tag_cooccurrence_map k) := by
  constructor
  · intro k
    exact ⟨rfl, rfl⟩
  · intro k hk
    rw [cooc_incr]
    exact upd_other _ _ _ hk

theorem cooc_inner_fold_proj (t : String) (e : TagDictionary → String → TagDictionary)
    (he : e = fun D u => cooc_incr (cooc_incr D t u) u t) :
    ∀ (rest : List String) (D : TagDictionary),
      (∀ k, (rest.foldl e D).tag_map k = D.tag_map k ∧
        (rest.foldl e D).tag_freq k = D.tag_freq k) ∧
      (∀ k, k ≠ t → k ∉ rest → (rest.foldl e D).tag_cooccurrence_map k =
        D.tag_cooccurrence_map k) := by
  subst he
  intro rest
  induction rest with
  | nil => intro D; exact ⟨fun k => ⟨rfl, rfl⟩, fun k _ _ => rfl⟩
  | cons u us ih =>
    intro D
    rw [List.foldl_cons]
    rcases ih (cooc_incr (cooc_incr D t u) u t) with ⟨h1, h2⟩
    constructor
    · intro k
      rcases h1 k with ⟨ha, hb⟩
      exact ⟨ha, hb⟩
    · intro k hkt hkus
      rw [List.mem_cons] at hkus
      push_neg at hkus
      rw [h2 k hkt hkus.2]
      rw [(cooc_incr_proj (cooc_incr D t u) u t).2 k hkus.1]
      rw [(cooc_incr_proj D t u).2 k hkt]

theorem cooc_pairs_proj :
    ∀ (tl : List String) (D : TagDictionary),
      (∀ k, (cooc_pairs D tl).tag_map k = D.tag_map k ∧
        (cooc_pairs D tl).tag_freq k = D.tag_freq k) ∧
      (∀ k, k ∉ tl → (cooc_pairs D tl).tag_cooccurrence_map k =
        D.tag_cooccurrence_map k) := by
  intro tl
  induction tl with
  | nil => intro D; exact ⟨fun k => ⟨rfl, rfl⟩, fun k _ => rfl⟩
  | cons t rest ih =>
    intro D
    rw [cooc_pairs]
    rcases ih (rest.foldl (fun D u => cooc_incr (cooc_incr D t u) u t) D) with ⟨h1, h2⟩
    rcases cooc_inner_fold_proj t _ rfl rest D with ⟨h3, h4⟩
    constructor
    · intro k
      rcases h1 k with ⟨ha, hb⟩
      rcases h3 k with ⟨hc, hd⟩
      exact ⟨ha.trans hc, hb.trans hd⟩
    · intro k hk
      rw [List.mem_cons] at hk
      push_neg at hk
      rw [h2 k hk.2]
      exact h4 k hk.1 hk.2

end LoreKeeper

namespace LoreKeeper

theorem remove_tag_skip (D : TagDictionary) (e u : String)
    (hmap : D.tag_map (py_lower u) = none) : remove_tag D e u = D := by
  simp only [remove_tag, hmap]

theorem remove_tag_pop (D : TagDictionary) (e u : String) (s : Finset String)
    (hmap : D.tag_map (py_lower u) = some s) (hes : e ∈ s)
    (hfreq : D.tag_freq (py_lower u) = 1) :
    ((remove_tag D e u).tag_map (py_lower u) = none ∧
     (remove_tag D e u).tag_freq (py_lower u) = 0 ∧
     (remove_tag D e u).tag_cooccurrence_map (py_lower u) = none) ∧
    (∀ k, k ≠ py_lower u →
      (remove_tag D e u).tag_map k = D.tag_map k ∧
      (remove_tag D e u).tag_freq k = D.tag_freq k ∧
      (remove_tag D e u).tag_cooccurrence_map k = D.tag_cooccurrence_map k) := by
  have hcond : upd D.tag_freq (py_lower u) (D.tag_freq (py_lower u) - 1)
      (py_lower u) ≤ 0 := by
    rw [upd_self, hfreq]
    norm_num
  simp only [remove_tag, hmap, if_pos hes]
  rw [if_pos hcond]
  refine ⟨⟨upd_self _ _ _, upd_self _ _ _, upd_self _ _ _⟩, ?_⟩
  intro k hk
  exact ⟨(upd_other _ _ _ hk).trans (upd_other _ _ _ hk),
    (upd_other _ _ _ hk).trans (upd_other _ _ _ hk), upd_other _ _ _ hk⟩

theorem tagdict_add_values (S : TagDictionary) (e : String) (T : List String)
    (hnd : ((T.filter (fun t => t ≠ "")).map py_lower).Nodup)
    (hfresh : ∀ k ∈ T.map py_lower, S.tag_map k = none ∧ S.tag_freq k = 0 ∧
      S.tag_cooccurrence_map k = none) :
    (∀ k, k ∈ T.map py_lower ∧ k ≠ "" →
      (tagdict_add S e T).tag_map k = some ({e} : Finset String) ∧
      (tagdict_add S e T).tag_freq k = 1) ∧
    (∀ k, ¬(k ∈ T.map py_lower ∧ k ≠ "") →
      (tagdict_add S e T).tag_map k = S.tag_map k ∧
      (tagdict_add S e T).tag_freq k = S.tag_freq k ∧
      (tagdict_add S e T).tag_cooccurrence_map k = S.tag_cooccurrence_map k) := by
  have hfr2 : ∀ k ∈ (T.filter (fun t => t ≠ "")).map py_lower,
      S.tag_map k = none ∧ S.tag_freq k = 0 := by
    intro k hk
    rcases (mem_tag_list_iff T k).mp hk with ⟨hm, _⟩
    exact ⟨(hfresh k hm).1, (hfresh k hm).2.1⟩
  rcases tag_record_fold e ((T.filter (fun t => t ≠ "")).map py_lower) S hnd hfr2 with
    ⟨hin, hout, hcooc⟩
  rcases cooc_pairs_proj ((T.filter (fun t => t ≠ "")).map py_lower)
    (((T.filter (fun t => t ≠ "")).map py_lower).foldl
      (fun D t => tag_record D e t) S) with ⟨hp1, hp2⟩
  constructor
  · intro k hk
    have hk2 := (mem_tag_list_iff T k).mpr hk
    rcases hp1 k with ⟨ha, hb⟩
    rcases hin k hk2 with ⟨hc, hd⟩
    exact ⟨ha.trans hc, hb.trans hd⟩
  · intro k hk
    have hk2 : k ∉ (T.filter (fun t => t ≠ "")).map py_lower :=
      fun hmem => hk ((mem_tag_list_iff T k).mp hmem)
    rcases hp1 k with ⟨ha, hb⟩
    rcases hout k hk2 with ⟨hc, hd⟩
    exact ⟨ha.trans hc, hb.trans hd, (hp2 k hk2).trans (hcooc k)⟩

theorem remove_fold_restore (e : String) (S : TagDictionary) :
    ∀ (T2 : List String) (D : TagDictionary),
      ((T2.filter (fun t => t ≠ "")).map py_lower).Nodup →
      (∀ k, k ∈ T2.map py_lower ∧ k ≠ "" →
        D.tag_map k = some ({e} : Finset String) ∧ D.tag_freq k = 1) →
      (∀ k, ¬(k ∈ T2.map py_lower ∧ k ≠ "") →
        D.tag_map k = S.tag_map k ∧ D.tag_freq k = S.tag_freq k ∧
        D.tag_cooccurrence_map k = S.tag_cooccurrence_map k) →
      (∀ k ∈ T2.map py_lower, S.tag_map k = none ∧ S.tag_freq k = 0 ∧
        S.tag_cooccurrence_map k = none) →
      tagdict_remove D e T2 = S := by
  intro T2
  induction T2 with
  | nil =>
    intro D _ _ hout _
    apply tagdict_eq
    · intro k
      exact (hout k (by simp)).1
    · intro k
      exact (hout k (by simp)).2.1
    · intro k
      exact (hout k (by simp)).2.2
  | cons u rest ih =>
    intro D hnd hin hout hfresh
    by_cases hu : u = ""
    · subst hu
      have hmap0 : D.tag_map (py_lower "") = none := by
        have h1 := hout ("") (by simp)
        have h2 := hfresh ("") (by simp [show py_lower ("") = ("") from rfl])
        rw [show py_lower ("") = ("") from rfl]
        rw [h1.1, h2.1]
      have hstep : tagdict_remove D e (("") :: rest) = tagdict_remove D e rest := by
        rw [tagdict_remove, List.foldl_cons, remove_tag_skip D e ("") hmap0]
        rfl
      rw [hstep]
      apply ih D
      · have he : ((("" :: rest).filter (fun t => t ≠ "")).map py_lower) =
            ((rest.filter (fun t => t ≠ "")).map py_lower) := by
          simp
        rw [← he]
        exact hnd
      · intro k hk
        exact hin k ⟨by rw [List.map_cons]; exact List.mem_cons_of_mem _ hk.1, hk.2⟩
      · intro k hk
        apply hout
        intro hk2
        rcases List.mem_cons.mp (List.map_cons py_lower ("") rest ▸ hk2.1) with heq | hm
        · exact hk2.2 (heq.trans rfl)
        · exact hk ⟨hm, hk2.2⟩
      · intro k hk
        exact hfresh k (by rw [List.map_cons]; exact List.mem_cons_of_mem _ hk)
    · have hnu : py_lower u ≠ "" := fun h => hu ((py_lower_eq_empty_iff u).mp h)
      have hfil : (((u :: rest).filter (fun t => t ≠ "")).map py_lower) =
          py_lower u :: ((rest.filter (fun t => t ≠ "")).map py_lower) := by
        simp [hu]
      rw [hfil, List.nodup_cons] at hnd
      have hinu := hin (py_lower u)
        ⟨by rw [List.map_cons]; exact List.mem_cons_self _ _, hnu⟩
      rcases remove_tag_pop D e u ({e} : Finset String) hinu.1
        (Finset.mem_singleton_self e) hinu.2 with ⟨hpop, hkeep⟩
      have hstep : tagdict_remove D e (u :: rest) =
          tagdict_remove (remove_tag D e u) e rest := by
        rw [tagdict_remove, List.foldl_cons]
        rfl
      rw [hstep]
      apply ih (remove_tag D e u)
      · exact hnd.2
      · intro k hk
        have hkn : k ≠ py_lower u := by
          intro heq
          apply hnd.1
          rw [← heq]
          exact (mem_tag_list_iff rest k).mpr hk
        rcases hkeep k hkn with ⟨h1, h2, _⟩
        rw [h1, h2]
        exact hin k ⟨by rw [List.map_cons]; exact List.mem_cons_of_mem _ hk.1, hk.2⟩
      · intro k hk
        by_cases hkn : k = py_lower u
        · subst hkn
          have hf := hfresh (py_lower u)
            (by rw [List.map_cons]; exact List.mem_cons_self _ _)
          exact ⟨hpop.1.trans hf.1.symm, hpop.2.1.trans hf.2.1.symm,
            hpop.2.2.trans hf.2.2.symm⟩
        · rcases hkeep k hkn with ⟨h1, h2, h3⟩
          rw [h1, h2, h3]
          apply hout
          intro hk2
          rcases List.mem_cons.mp (List.map_cons py_lower u rest ▸ hk2.1) with heq | hm
          · exact hkn heq
          · exact hk ⟨hm, hk2.2⟩
      · intro k hk
        exact hfresh k (by rw [List.map_cons]; exact List.mem_cons_of_mem _ hk)

/-- C4 (amended).  `remove(e, T)` undoes `add(e, T)` when the tags of
`T` are ASCII (both the model and Python lowercase ASCII tags
identically; beyond ASCII `str.lower()` folds Unicode), pairwise
distinct after lowercasing and none of them is present in the
dictionary (no membership set, no frequency, no co-occurrence row);
the membership sets, frequency counters and co-occurrence rows created
by the `add` are then dropped entirely, so the dictionary returns to
exactly the starting state.  On states where a tag of `T` is already
present the inverse property fails (`C4_remove_not_inverse`). -/
theorem C4_add_remove_restores_fresh (S : TagDictionary) (e : String) (T : List String)
    (hascii : ∀ t ∈ T, ∀ c ∈ t.data, c.toNat < 128)
    (hnd : ((T.filter (fun t => t ≠ "")).map py_lower).Nodup)
    (hfresh : ∀ k ∈ T.map py_lower, S.tag_map k = none ∧ S.tag_freq k = 0 ∧
      S.tag_cooccurrence_map k = none)
    (he_not_recorded : ∀ t s, S.tag_map t = some s → e ∉ s) :
    tagdict_remove (tagdict_add S e T) e T = S := by
  rcases tagdict_add_values S e T hnd hfresh with ⟨hin, hout⟩
  exact remove_fold_restore e S T (tagdict_add S e T) hnd hin hout hfresh

/-- Witness for the amended C4: adding and removing two fresh tags over
a dictionary that already holds an unrelated tag. -/
theorem C4_witness :
    tagdict_remove (tagdict_add c4_D0 ("e9") ["B", "c"]) ("e9") ["B", "c"] = c4_D0 := by
  apply C4_add_remove_restores_fresh
  · decide
  · decide
  · intro k hk
    have hred : ((["B", "c"] : List String).map py_lower) = [("b"), ("c")] := rfl
    rw [hred] at hk
    rcases List.mem_cons.mp hk with rfl | hk
    · exact ⟨rfl, rfl, rfl⟩
    · rcases List.mem_cons.mp hk with rfl | hk
      · exact ⟨rfl, rfl, rfl⟩
      · cases hk
  · intro t s h
    have hD0 : c4_D0.tag_map t = (if t = ("a") then some (insert ("e0") ∅) else none) :=
      rfl
    rw [hD0] at h
    by_cases ht : t = ("a")
    · rw [if_pos ht] at h
      injection h with h2
      rw [← h2]
      decide
    · rw [if_neg ht] at h
      cases h

end LoreKeeper

namespace LoreKeeper

/-! ## C7 and C8: period queries, caching, and validation -/

theorem for_period_cases (S : Store)
    (hC2 : ∀ s e inc ids, lookupA S.lru_cache (s, e, inc) = some ids →
      compute_period_ids S s e inc = some ids) (s e : String) (inc : Bool) :
    (∃ ids S', get_events_for_period S s e inc = (.ok ids, S') ∧
      compute_period_ids S s e inc = some ids ∧
      S'.events_by_id = S.events_by_id ∧ S'.period_cache = S.period_cache) ∨
    (get_events_for_period S s e inc = (.error ("KeyError"), S) ∧
      compute_period_ids S s e inc = none) := by
  rw [get_events_for_period]
  cases hlru : lookupA S.lru_cache (s, e, inc) with
  | some ids => exact Or.inl ⟨ids, S, rfl, hC2 s e inc ids hlru, rfl, rfl⟩
  | none =>
    cases hcomp : compute_period_ids S s e inc with
    | some ids => exact Or.inl ⟨ids, _, rfl, rfl, rfl, rfl⟩
    | none => exact Or.inr ⟨rfl, rfl⟩

theorem period_query_eq_uncached (S : Store) (hC : CacheOK S)
    (p : String) (tags : List String) (inc : Bool) (ref : PyDate) :
    (get_events_by_period S p tags inc ref).1 = period_uncached S p tags inc ref := by
  rcases hC with ⟨hC1, hC2⟩
  rcases tags with _ | ⟨t0, ts⟩
  · cases hhit : lookupA S.period_cache (p, render_date ref, inc) with
    | some ids =>
      rcases hC1 p (render_date ref) inc ids hhit with ⟨_, hres⟩
      rcases hres ref rfl with ⟨evs, homap, hunc⟩
      simp only [get_events_by_period, hhit]
      rw [homap, hunc]
    | none =>
      simp only [get_events_by_period, hhit]
      cases hres : resolve_period_range p ref with
      | error msg => rw [period_uncached, hres]
      | ok se =>
        rcases se with ⟨s, e⟩
        rw [period_uncached, hres]
        simp only [if_pos rfl]
        rcases for_period_cases S hC2 s e inc with
          ⟨ids, S', hg, hcomp, hev, _⟩ | ⟨hg, hcomp⟩
        · rw [hg, hcomp]
          simp only []
          rw [hev]
          cases homap : omap (lookupA S.events_by_id) ids <;> simp only [if_true]
        · rw [hg, hcomp]
          simp only [if_true]
  · cases hhit : lookupA S.period_cache (p, render_date ref, inc) with
    | some ids =>
      simp only [get_events_by_period, hhit]
      cases hres : resolve_period_range p ref with
      | error msg => rw [period_uncached, hres]
      | ok se =>
        rcases se with ⟨s, e⟩
        rw [period_uncached, hres]
        simp only [if_neg (List.cons_ne_nil t0 ts)]
        cases hge : get_events S none (some s) (some e) (t0 :: ts) inc <;> simp only []
    | none =>
      simp only [get_events_by_period, hhit]
      cases hres : resolve_period_range p ref with
      | error msg => rw [period_uncached, hres]
      | ok se =>
        rcases se with ⟨s, e⟩
        rw [period_uncached, hres]
        simp only [if_neg (List.cons_ne_nil t0 ts)]
        cases hge : get_events S none (some s) (some e) (t0 :: ts) inc <;> simp only []

theorem CacheOK_of_empty_caches (S : Store) (h1 : S.period_cache = [])
    (h2 : S.lru_cache = []) : CacheOK S := by
  constructor
  · intro p refS inc ids h
    rw [h1] at h
    cases h
  · intro s e inc ids h
    rw [h2] at h
    cases h

theorem add_event_caches (S : Store) (e v : TimelineEvent)
    (h : add_event S e = (.ok v, (add_event S e).2)) :
    (add_event S e).2 = S ∨
    ((add_event S e).2.period_cache = [] ∧ (add_event S e).2.lru_cache = []) := by
  rw [add_event]
  cases hlk : lookupA S.index_by_hash (ingestion_payload e) with
  | some eid =>
    by_cases hne : eid ≠ ""
    · simp only [if_pos hne]
      cases hev : lookupA S.events_by_id eid with
      | some ev => exact Or.inl rfl
      | none => exact Or.inl rfl
    · simp only [if_neg hne, add_event.add_event_fresh]
      cases hyr : parse_year e.date with
      | none => exact Or.inl rfl
      | some yr => exact Or.inr ⟨rfl, rfl⟩
  | none =>
    simp only [add_event.add_event_fresh]
    cases hyr : parse_year e.date with
    | none => exact Or.inl rfl
    | some yr => exact Or.inr ⟨rfl, rfl⟩

/-- C7.  Cached period queries are never stale: after any successful
`add_event`, `get_events_by_period` returns exactly the uncached
computation over the updated store — a fresh append clears both caches,
and a content-duplicate no-op leaves the store (and hence the still
coherent caches) unchanged. -/
theorem C7_period_cache_never_stale (S : Store) (hC : CacheOK S)
    (e v : TimelineEvent) (hadd : (add_event S e).1 = .ok v)
    (p : String) (tags : List String) (inc : Bool) (ref : PyDate) :
    (get_events_by_period ((add_event S e).2) p tags inc ref).1 =
      period_uncached ((add_event S e).2) p tags inc ref := by
  apply period_query_eq_uncached
  rcases add_event_caches S e v (by
    rcases hres : add_event S e with ⟨r, S1⟩
    rw [hres] at hadd
    simp only at hadd
    rw [hadd]) with h | h
  · rw [h]
    exact hC
  · exact CacheOK_of_empty_caches _ h.1 h.2

/-- Witness for C7: a fresh add on the one-event store, then a cached
window query. -/
theorem C7_witness :
    (get_events_by_period ((add_event wit_store
      ⟨"n2", "2024-04-08", "t8", "note", "d8", [], "s", false, []⟩).2)
      ("last_7_days") [] false ⟨2024, 4, 10⟩).1 =
    period_uncached ((add_event wit_store
      ⟨"n2", "2024-04-08", "t8", "note", "d8", [], "s", false, []⟩).2)
      ("last_7_days") [] false ⟨2024, 4, 10⟩ :=
  C7_period_cache_never_stale wit_store
    (CacheOK_of_empty_caches wit_store rfl rfl)
    ⟨"n2", "2024-04-08", "t8", "note", "d8", [], "s", false, []⟩
    ⟨"n2", "2024-04-08", "t8", "note", "d8", [], "s", false, []⟩
    (by rfl) ("last_7_days") [] false ⟨2024, 4, 10⟩

end LoreKeeper

namespace LoreKeeper

theorem lookup_self_of_store_mem (S : Store) (hI : Invariant S) (e : TimelineEvent)
    (h : e ∈ store_events S) : lookupA S.events_by_id e.id = some e := by
  rcases List.mem_map.mp h with ⟨⟨k, v⟩, hmem, hv⟩
  cases hv
  have hk := hI.mem_keys _ hmem
  rw [hk.1]
  exact lookupA_of_mem hI.keys_nodup hmem

theorem compute_period_ids_ok (S : Store) (hI : Invariant S) (a b : String) (inc : Bool) :
    ∃ ids evs, compute_period_ids S a b inc = some ids ∧
      omap (lookupA S.events_by_id) ids = some evs := by
  rcases get_events_between_spec S hI a b with ⟨l, hl, hmem, _, _⟩
  have hsome : ∀ e ∈ l, (lookupA S.events_by_id e.id).isSome := by
    intro e he
    rw [lookup_self_of_store_mem S hI e ((hmem e).mp he).1]
    rfl
  cases inc with
  | true =>
    have h1 : ∀ x ∈ l.map (fun e => e.id), (lookupA S.events_by_id x).isSome := by
      intro x hx
      rcases List.mem_map.mp hx with ⟨e, he, rfl⟩
      exact hsome e he
    rcases omap_isSome_of_forall h1 with ⟨evs, hevs⟩
    exact ⟨_, evs, by simp only [compute_period_ids, hl]; rfl, hevs⟩
  | false =>
    have h1 : ∀ x ∈ (l.filter (fun e => !e.archived)).map (fun e => e.id),
        (lookupA S.events_by_id x).isSome := by
      intro x hx
      rcases List.mem_map.mp hx with ⟨e, he, rfl⟩
      exact hsome e (List.mem_of_mem_filter he)
    rcases omap_isSome_of_forall h1 with ⟨evs, hevs⟩
    exact ⟨_, evs, by simp only [compute_period_ids, hl]; rfl, hevs⟩

theorem lookup_isSome_of_sorted_mem (S : Store) (hI : Invariant S) (i : String)
    (h : i ∈ S.sorted_event_ids) : (lookupA S.events_by_id i).isSome := by
  rcases List.mem_iff_getElem.mp h with ⟨t, ht, rfl⟩
  have ht2 : t < S.sorted_dates.length := by rw [hI.len_eq]; exact ht
  have hz := zip_pair_mem S.sorted_dates S.sorted_event_ids t ht2 ht
  rcases hI.zip_lookup _ hz with ⟨ev, hev, _, _⟩
  rw [hev]
  rfl

theorem get_events_ok (S : Store) (hI : Invariant S) (sd ed : Option String)
    (tags : List String) (inc : Bool) :
    ∃ evs, get_events S none sd ed tags inc = some evs := by
  have hcand : ∃ evs0, (if truthy sd || truthy ed then
      get_events_between S (sd.getD ("0000-01-01")) (ed.getD ("9999-12-31"))
    else omap (lookupA S.events_by_id) S.sorted_event_ids) = some evs0 := by
    cases h : truthy sd || truthy ed with
    | true =>
      rw [if_pos rfl]
      rcases get_events_between_spec S hI (sd.getD ("0000-01-01")) (ed.getD ("9999-12-31"))
        with ⟨l, hl, _⟩
      exact ⟨l, hl⟩
    | false =>
      rw [if_neg Bool.false_ne_true]
      exact omap_isSome_of_forall (fun i hi => lookup_isSome_of_sorted_mem S hI i hi)
  rcases hcand with ⟨evs0, hevs0⟩
  simp only [get_events]
  rw [hevs0]
  exact ⟨_, rfl⟩

theorem resolve_ok_valid (p : String) (ref : PyDate) (se : String × String)
    (h : resolve_period_range p ref = .ok se) : p ∈ valid_periods := by
  by_cases h1 : p = "last_7_days"
  · rw [h1]; decide
  · by_cases h2 : p = "last_30_days"
    · rw [h2]; decide
    · by_cases h3 : p = "last_3_months"
      · rw [h3]; decide
      · by_cases h4 : p = "this_year"
        · rw [h4]; decide
        · rw [resolve_period_range, if_neg h1, if_neg h2, if_neg h3, if_neg h4] at h
          cases h

theorem resolve_error_shape (p : String) (ref : PyDate) (msg : String)
    (h : resolve_period_range p ref = .error msg) :
    p ∉ valid_periods ∨ msg = ("OverflowError") := by
  by_cases h1 : p = "last_7_days"
  · subst h1
    rw [resolve_period_range, if_pos rfl] at h
    cases hsub : sub_days ref 6 with
    | some d =>
      simp only [hsub] at h
      cases h
    | none =>
      simp only [hsub] at h
      exact Or.inr (Except.error.inj h).symm
  · by_cases h2 : p = "last_30_days"
    · subst h2
      rw [resolve_period_range, if_neg h1, if_pos rfl] at h
      cases hsub : sub_days ref 29 with
      | some d =>
        simp only [hsub] at h
        cases h
      | none =>
        simp only [hsub] at h
        exact Or.inr (Except.error.inj h).symm
    · by_cases h3 : p = "last_3_months"
      · subst h3
        rw [resolve_period_range, if_neg h1, if_neg h2, if_pos rfl] at h
        cases hsub : sub_days ref 90 with
        | some d =>
          simp only [hsub] at h
          cases h
        | none =>
          simp only [hsub] at h
          exact Or.inr (Except.error.inj h).symm
      · by_cases h4 : p = "this_year"
        · subst h4
          rw [resolve_period_range, if_neg h1, if_neg h2, if_neg h3, if_pos rfl] at h
          cases h
        · refine Or.inl ?_
          intro hmem
          simp only [valid_periods, List.mem_cons, List.not_mem_nil, or_false] at hmem
          rcases hmem with h | h | h | h
          · exact h1 h
          · exact h2 h
          · exact h3 h
          · exact h4 h

theorem period_uncached_ok (S : Store) (hI : Invariant S) (p : String)
    (tags : List String) (inc : Bool) (ref : PyDate) (s e : String)
    (hres : resolve_period_range p ref = .ok (s, e)) :
    ∃ evs, period_uncached S p tags inc ref = .ok evs := by
  rcases tags with _ | ⟨t0, ts⟩
  · rcases compute_period_ids_ok S hI s e inc with ⟨ids, evs, hc, ho⟩
    refine ⟨evs, ?_⟩
    rw [period_uncached, hres]
    simp only [if_true, hc, ho]
  · rcases get_events_ok S hI (some s) (some e) (t0 :: ts) inc with ⟨evs, hge⟩
    refine ⟨evs, ?_⟩
    rw [period_uncached, hres]
    simp only [if_neg (List.cons_ne_nil t0 ts), hge]

end LoreKeeper

namespace LoreKeeper

/-- C8 (amended).  With an explicit reference date, coherent caches
and well-formed indexes, a period query fails synchronously iff the
period name is not one of `last_7_days`, `last_30_days`,
`last_3_months`, `this_year` *or* the window start underflows
`date.min` (CPython raises `OverflowError` computing
`reference - timedelta(days=n)` before 0001-01-01) — for every tag
list and `include_archived` flag — and a failing call returns the
store unchanged: both the `ValueError` and the `OverflowError` are
raised by `_resolve_period_range` before any cache or index is
touched.  The original claim's "iff the period name is invalid" is
refuted by `C8_overflow_near_date_min`. -/
theorem C8_period_error_characterisation (S : Store) (hI : Invariant S) (hC : CacheOK S)
    (p : String) (tags : List String) (inc : Bool) (ref : PyDate) :
    ((∃ msg, (get_events_by_period S p tags inc ref).1 = .error msg) ↔
      p ∉ valid_periods ∨ resolve_period_range p ref = .error ("OverflowError")) ∧
    (∀ msg, (get_events_by_period S p tags inc ref).1 = .error msg →
      (get_events_by_period S p tags inc ref).2 = S) := by
  cases hres : resolve_period_range p ref with
  | ok se =>
    rcases se with ⟨s, e⟩
    have hvalid : p ∈ valid_periods := resolve_ok_valid p ref _ hres
    rcases period_uncached_ok S hI p tags inc ref s e hres with ⟨evs, hok⟩
    have h1 : (get_events_by_period S p tags inc ref).1 = .ok evs := by
      rw [period_query_eq_uncached S hC, hok]
    refine ⟨⟨?_, ?_⟩, ?_⟩
    · rintro ⟨msg, hmsg⟩
      rw [h1] at hmsg
      cases hmsg
    · rintro (h | h)
      · exact absurd hvalid h
      · cases h
    · intro msg hmsg
      rw [h1] at hmsg
      cases hmsg
  | error msg0 =>
    have hhit : lookupA S.period_cache (p, render_date ref, inc) = none := by
      cases hh : lookupA S.period_cache (p, render_date ref, inc) with
      | none => rfl
      | some ids =>
        rcases (hC.1 p (render_date ref) inc ids hh).2 ref rfl with ⟨evs, _, hunc⟩
        rw [period_uncached, hres] at hunc
        cases hunc
    have hfull : get_events_by_period S p tags inc ref = (.error msg0, S) := by
      rcases tags with _ | ⟨t0, ts⟩
      · simp only [get_events_by_period, hhit, hres]
      · simp only [get_events_by_period, hhit, hres]
    refine ⟨⟨fun _ => ?_, fun _ => ⟨msg0, by rw [hfull]⟩⟩, ?_⟩
    · rcases resolve_error_shape p ref msg0 hres with h | h
      · exact Or.inl h
      · exact Or.inr (congrArg Except.error h)
    · intro msg hmsg
      rw [hfull]

/-- Witness for the amended C8: an unsupported period name on the
one-event store errors and returns the store unchanged. -/
theorem C8_witness :
    ((∃ msg, (get_events_by_period wit_store ("bogus") [] false ⟨2024, 3, 10⟩).1 =
        .error msg) ↔ ("bogus") ∉ valid_periods ∨
      resolve_period_range ("bogus") ⟨2024, 3, 10⟩ = .error ("OverflowError")) ∧
    (∀ msg, (get_events_by_period wit_store ("bogus") [] false ⟨2024, 3, 10⟩).1 =
        .error msg →
      (get_events_by_period wit_store ("bogus") [] false ⟨2024, 3, 10⟩).2 = wit_store) :=
  C8_period_error_characterisation wit_store wit_store_invariant
    (CacheOK_of_empty_caches wit_store rfl rfl) ("bogus") [] false ⟨2024, 3, 10⟩

/-- The original C8 is false on the program: `last_7_days` is a valid
period name, yet with `reference_date = date(1, 1, 1)` the window
start `reference - timedelta(days=6)` falls before `date.min`, CPython
raises `OverflowError`, and the query fails synchronously although the
period is supported. -/
theorem C8_overflow_near_date_min :
    ("last_7_days") ∈ valid_periods ∧
    resolve_period_range ("last_7_days") ⟨1, 1, 1⟩ = .error ("OverflowError") ∧
    (get_events_by_period empty_store ("last_7_days") [] false ⟨1, 1, 1⟩).1 =
      .error ("OverflowError") :=
  ⟨by decide, rfl, rfl⟩

end LoreKeeper
